import Mathlib

/-!
Verification of the ancestor/descendant ontology-mapping script
(scripts/compute_mappings/compute_tissue_and_cell_type_mappings.py).

The Python source is shallowly embedded below.  Strings model entity names,
a Graph is a record of node and edge lists (mirroring the pygraphviz AGraph
operations actually used: add_node, add_edge, has_node, successors,
predecessors), Python dicts are association lists with overwrite-on-insert,
Python sets are duplicate-free lists, ValueError is an Except value, and
unbounded recursion is given a fuel parameter (a result of none means the
fuel was exhausted; the recursion in the source has no such bound).
Each recursive traversal also returns two logs that make the claims about
duplicate traversal and diagnostics statable: the list of entities whose
neighbours were queried, in query order, and the list of entities for which
a not-found diagnostic was printed.
-/

namespace CxG

/-! ## String helpers -/

/-- Number of occurrences of a character in a string. -/
def countChar (c : Char) (s : String) : Nat := s.toList.count c

/-- Replacement of every occurrence of character a by character b,
the semantics of the Python replace call on a single-character pattern. -/
def replaceChar (a b : Char) (s : String) : String :=
  (s.toList.map (fun c => if c = a then b else c)).asString

/-- Whether the first character list starts with the second. -/
def startsWithChars : List Char → List Char → Bool
  | _, [] => true
  | [], _ :: _ => false
  | c :: cs, p :: ps => c == p && startsWithChars cs ps

/-- Whether the pattern occurs somewhere in the character list. -/
def containsSubAux (pat : List Char) : List Char → Bool
  | [] => pat.isEmpty
  | c :: rest => startsWithChars (c :: rest) pat || containsSubAux pat rest

/-- Whether pat occurs as a substring of s, the semantics of the Python
membership test on strings. -/
def containsSub (s pat : String) : Bool := containsSubAux pat.toList s.toList

/-- Removal of every (non-overlapping, left-to-right) occurrence of the
pattern, the semantics of the Python replace call with empty replacement.
The skip counter drops the remaining characters of a matched occurrence. -/
def stripPatAux (pat : List Char) : List Char → Nat → List Char
  | [], _ => []
  | _ :: rest, skip + 1 => stripPatAux pat rest skip
  | c :: rest, 0 =>
    if startsWithChars (c :: rest) pat && !pat.isEmpty then
      stripPatAux pat rest (pat.length - 1)
    else c :: stripPatAux pat rest 0

/-- Python s.replace(pat, empty string). -/
def replaceRemove (s pat : String) : String := (stripPatAux pat.toList s.toList 0).asString

/-! ## Source functions: predicates and the identifier codec -/

/-- Returns true if the given entity name contains (cell culture). -/
def is_cell_culture (entity_name : String) : Bool := containsSub entity_name "(cell culture)"

/-- Returns true if the given entity name contains (organoid). -/
def is_organoid (entity_name : String) : Bool := containsSub entity_name "(organoid)"

/-- Returns true if the given entity name contains (cell culture) or (organoid). -/
def is_cell_culture_or_organoid (entity_name : String) : Bool :=
  is_cell_culture entity_name || is_organoid entity_name

/-- Converts an ontology term id string between the internal underscore form
and the writable colon form; raises ValueError (here: Except.error) when the
separator count differs from one.  Faithful to reformat_ontology_term_id. -/
def reformat_ontology_term_id (ontology_term_id : String) (to_writable : Bool) :
    Except String String :=
  if to_writable then
    if countChar '_' ontology_term_id ≠ 1 then
      Except.error (ontology_term_id ++ " is an invalid ontology term id")
    else Except.ok (replaceChar '_' ':' ontology_term_id)
  else
    if countChar ':' ontology_term_id ≠ 1 then
      Except.error (ontology_term_id ++ " is an invalid ontology term id")
    else Except.ok (replaceChar ':' '_' ontology_term_id)

/-- Left-to-right conversion of a list of ids to writable form, stopping at
the first ValueError, the semantics of the Python list comprehensions over
reformat_ontology_term_id. -/
def mapReformat : List String → Except String (List String)
  | [] => Except.ok []
  | x :: xs =>
    match reformat_ontology_term_id x true with
    | Except.error msg => Except.error msg
    | Except.ok y =>
      match mapReformat xs with
      | Except.error msg => Except.error msg
      | Except.ok ys => Except.ok (y :: ys)

/-! ## Python dict and set -/

/-- Python dict assignment: overwrite the value when the key is present,
append the binding otherwise. -/
def dinsert {α : Type} (k : String) (v : α) (d : List (String × α)) : List (String × α) :=
  if d.any (fun p => p.1 == k) then d.map (fun p => if p.1 == k then (k, v) else p)
  else d ++ [(k, v)]

/-- Python dict lookup as an Option. -/
def dlookup {α : Type} (k : String) (d : List (String × α)) : Option α :=
  (d.find? (fun p => p.1 == k)).map (fun p => p.2)

/-- Python set.add on a duplicate-free list. -/
def setAdd (s : List String) (x : String) : List String :=
  if s.contains x then s else s ++ [x]

/-- Python set.update on a duplicate-free list. -/
def setUpdate (s : List String) (xs : List String) : List String := xs.foldl setAdd s

/-- Returns a dictionary of organoid ontology term ids keyed by stem
ontology term id.  Faithful to key_organoids_by_ontology_term_id: only
names containing (organoid) are indexed. -/
def key_organoids_by_ontology_term_id (entity_names : List String) :
    List (String × String) :=
  entity_names.foldl (fun d entity_name =>
    if is_organoid entity_name then
      dinsert (replaceRemove entity_name " (organoid)") entity_name d
    else d) []

/-! ## The graph -/

/-- Directed graph of entity names, mirroring the pygraphviz AGraph
operations used by the source.  Both lists grow by appends only. -/
structure Graph where
  nodes : List String
  edges : List (String × String)
deriving DecidableEq

/-- AGraph with no nodes, as created by pgv.AGraph(). -/
def Graph.empty : Graph := ⟨[], []⟩

/-- AGraph.has_node. -/
def Graph.has_node (g : Graph) (n : String) : Bool := g.nodes.contains n

/-- AGraph.add_node: a no-op when the node is already present. -/
def Graph.add_node (g : Graph) (n : String) : Graph :=
  if g.nodes.contains n then g else ⟨g.nodes ++ [n], g.edges⟩

/-- AGraph.add_edge: both endpoints are added as nodes; a strict AGraph
stores at most one edge between a pair of nodes, so adding an edge that is
already present (in either orientation) is a no-op. -/
def Graph.add_edge (g : Graph) (u v : String) : Graph :=
  let g1 := (g.add_node u).add_node v
  if g1.edges.contains (u, v) || g1.edges.contains (v, u) then g1
  else ⟨g1.nodes, g1.edges ++ [(u, v)]⟩

/-- AGraph.successors: the heads of the edges whose tail is n.  The source
wraps the call in try/except KeyError; the traversals below branch on
has_node to model the raising case. -/
def Graph.successors (g : Graph) (n : String) : List String :=
  (g.edges.filter (fun e => e.1 == n)).map (fun e => e.2)

/-- AGraph.predecessors: the tails of the edges whose head is n. -/
def Graph.predecessors (g : Graph) (n : String) : List String :=
  (g.edges.filter (fun e => e.2 == n)).map (fun e => e.1)

/-! ## Closure traversals -/

/-- Result of one traversal call: the accumulated set, the log of entities
whose neighbours were queried (in query order), and the log of entities for
which a not-found diagnostic was printed. -/
abbrev TravRes := List String × List String × List String

/-- Sequential traversal of a list of entities threading the accumulator
through the recursive calls, the semantics of the Python for-loops inside
list_ancestors and list_descendants.  The query and diagnostic logs of the
calls are concatenated. -/
def trav_fold (step : String → List String → Option TravRes) :
    List String → List String → Option TravRes
  | [], acc => some (acc, [], [])
  | e :: rest, acc =>
    match step e acc with
    | none => none
    | some (a1, q1, d1) =>
      match trav_fold step rest a1 with
      | none => none
      | some (a2, q2, d2) => some (a2, q1 ++ q2, d1 ++ d2)

/-- From the given graph, recursively build up the set of ancestors of the
given entity.  Faithful to list_ancestors: the entity is added to the set
first; cell-culture/organoid names return at once; a missing entity prints
a diagnostic and returns; otherwise every predecessor is recursed into,
with no check whether it was already visited. -/
def list_ancestors (g : Graph) : Nat → String → List String → Option TravRes
  | 0, _, _ => none
  | fuel + 1, entity_name, ancestor_set =>
    let acc := setAdd ancestor_set entity_name
    if is_cell_culture_or_organoid entity_name then some (acc, [], [])
    else if g.has_node entity_name then
      match trav_fold (fun e a => list_ancestors g fuel e a) (g.predecessors entity_name) acc with
      | none => none
      | some (a2, q, d) => some (a2, entity_name :: q, d)
    else some (acc, [entity_name], [entity_name])

/-- From the given graph, recursively build up the set of descendants of
the given entity.  Faithful to list_descendants: cell-culture/organoid
names return at once and the entity itself is never added; a missing entity
prints a diagnostic and contributes no successors; otherwise the successors
are added to the set and each is recursed into, with no check whether it
was already visited. -/
def list_descendants (g : Graph) : Nat → String → List String → Option TravRes
  | 0, _, _ => none
  | fuel + 1, entity_name, all_successors =>
    if is_cell_culture entity_name || is_organoid entity_name then
      some (all_successors, [], [])
    else
      let found := g.has_node entity_name
      let successors := if found then g.successors entity_name else []
      let acc := setUpdate all_successors successors
      match trav_fold (fun e a => list_descendants g fuel e a) successors acc with
      | none => none
      | some (a2, q, d) =>
        some (a2, entity_name :: q, (if found then [] else [entity_name]) ++ d)

/-! ## Subgraph building -/

/-- Loop body of build_descendants_graph over the children reported by the
ontology: every child gets an edge from the parent, and a child not yet in
the graph is expanded via the given recursive call.  The second component
is the log of entities whose children were queried. -/
def children_fold (expand : String → Graph → Graph × List String) (entity_name : String) :
    List String → Graph → Graph × List String
  | [], g => (g, [])
  | child_name :: rest, g =>
    let child_visited := g.has_node child_name
    let g1 := g.add_edge entity_name child_name
    if child_visited then children_fold expand entity_name rest g1
    else
      let r1 := expand child_name g1
      let r2 := children_fold expand entity_name rest r1.1
      (r2.1, r1.2 ++ r2.2)

/-- Recursively build the graph of descendants of the given entity.
Faithful to build_descendants_graph with the ontology provider abstracted
as a function from an entity name to its direct subclasses.  The log
records every entity whose children were queried, in query order. -/
def build_descendants_graph (subclasses : String → List String) :
    Nat → String → Graph → Graph × List String
  | 0, _, g => (g, [])
  | fuel + 1, entity_name, g =>
    let g1 := g.add_node entity_name
    let r := children_fold (fun c h => build_descendants_graph subclasses fuel c h)
      entity_name (subclasses entity_name) g1
    (r.1, entity_name :: r.2)

/-- Extract a subgraph for the given cell types: every anchor in the list
is expanded by build_descendants_graph, starting from the empty graph.
Faithful to build_graph_for_cell_types. -/
def build_graph_for_cell_types (subclasses : String → List String) (fuel : Nat)
    (entity_names : List String) : Graph × List String :=
  entity_names.foldl (fun acc entity_name =>
    let r := build_descendants_graph subclasses fuel entity_name acc.1
    (r.1, acc.2 ++ r.2)) (Graph.empty, [])

/-! ## Ancestor mapping -/

/-- Build a dictionary of ancestors keyed by entity.  Faithful to
key_ancestors_by_entity: there is no exception handler, so the first
ValueError raised by reformat_ontology_term_id aborts the whole loop. -/
def key_ancestors_by_entity (g : Graph) (fuel : Nat) :
    List String → List (String × List String) →
    Option (Except String (List (String × List String)))
  | [], ancestors_by_entity => some (Except.ok ancestors_by_entity)
  | entity_name :: rest, ancestors_by_entity =>
    match list_ancestors g fuel entity_name [] with
    | none => none
    | some (descendants, _, _) =>
      match reformat_ontology_term_id entity_name true with
      | Except.error msg => some (Except.error msg)
      | Except.ok sanitized_entity_name =>
        match mapReformat descendants with
        | Except.error msg => some (Except.error msg)
        | Except.ok sanitized_ancestors =>
          key_ancestors_by_entity g fuel rest
            (dinsert sanitized_entity_name sanitized_ancestors ancestors_by_entity)

/-! ## Descendant mapping -/

/-- Inner loop of write_descendants_by_entity over the computed descendant
set: a descendant in the accept list is kept, and a descendant that is a
key of the organoid index additionally contributes its organoid name. -/
def descendant_accepts (accept_list : List String) (org : List (String × String)) :
    List String → List String
  | [] => []
  | descendant :: rest =>
    (if accept_list.contains descendant then [descendant] else []) ++
    (match dlookup descendant org with
     | some v => [v]
     | none => []) ++
    descendant_accepts accept_list org rest

/-- The descendant_accept_list computed for one entity: the filtered
descendants followed by the organoid name of the entity itself, if any. -/
def build_accept_list (descendants accept_list : List String)
    (org : List (String × String)) (entity_name : String) : List String :=
  descendant_accepts accept_list org descendants ++
    (match dlookup entity_name org with
     | some v => [v]
     | none => [])

/-- Processing of a single entity of a tier in write_descendants_by_entity:
compute its descendants, filter them by the accept list and organoid index,
skip the entity when the kept list is empty, and otherwise store the
writable forms under the writable key (first ValueError aborts). -/
def process_entity (g : Graph) (fuel : Nat) (accept_list : List String)
    (org : List (String × String)) (all_descendants : List (String × List String))
    (entity_name : String) : Option (Except String (List (String × List String))) :=
  match list_descendants g fuel entity_name [] with
  | none => none
  | some (descendants, _, _) =>
    let descendant_accept_list := build_accept_list descendants accept_list org entity_name
    if descendant_accept_list.isEmpty then some (Except.ok all_descendants)
    else
      match reformat_ontology_term_id entity_name true with
      | Except.error msg => some (Except.error msg)
      | Except.ok sanitized_entity_name =>
        match mapReformat descendant_accept_list with
        | Except.error msg => some (Except.error msg)
        | Except.ok sanitized_descendants =>
          some (Except.ok (dinsert sanitized_entity_name sanitized_descendants all_descendants))

/-- Processing of one tier (one entity_set) of write_descendants_by_entity. -/
def process_tier (g : Graph) (fuel : Nat) (accept_list : List String)
    (org : List (String × String)) :
    List String → List (String × List String) →
    Option (Except String (List (String × List String)))
  | [], all_descendants => some (Except.ok all_descendants)
  | entity_name :: rest, all_descendants =>
    match process_entity g fuel accept_list org all_descendants entity_name with
    | none => none
    | some (Except.error msg) => some (Except.error msg)
    | some (Except.ok acc1) => process_tier g fuel accept_list org rest acc1

/-- Create descendant relationships between the given entity hierarchy.
Faithful to write_descendants_by_entity: a tier with no lower tiers is
skipped; otherwise the accept list is the concatenation of all lower
tiers, the organoid index is computed over it, and every entity of the
tier is processed in order against the shared dictionary. -/
def write_descendants_by_entity (g : Graph) (fuel : Nat) :
    List (List String) → List (String × List String) →
    Option (Except String (List (String × List String)))
  | [], all_descendants => some (Except.ok all_descendants)
  | entity_set :: rest, all_descendants =>
    if rest.isEmpty then write_descendants_by_entity g fuel rest all_descendants
    else
      let accept_list := rest.flatten
      let org := key_organoids_by_ontology_term_id accept_list
      match process_tier g fuel accept_list org entity_set all_descendants with
      | none => none
      | some (Except.error msg) => some (Except.error msg)
      | some (Except.ok acc1) => write_descendants_by_entity g fuel rest acc1

/-! ## Lemmas about character replacement (the codec) -/

lemma count_map_replace_self (a b : Char) (hab : a ≠ b) (l : List Char) :
    (l.map (fun c => if c = a then b else c)).count b = l.count b + l.count a := by
  induction l with
  | nil => rfl
  | cons c t ih =>
    simp only [List.map_cons, List.count_cons, ih, beq_iff_eq]
    split_ifs with h1 h2 h3 <;> simp_all <;> omega

lemma count_map_replace_gone (a b : Char) (hab : a ≠ b) (l : List Char) :
    (l.map (fun c => if c = a then b else c)).count a = 0 := by
  induction l with
  | nil => rfl
  | cons c t ih =>
    simp only [List.map_cons, List.count_cons, ih, beq_iff_eq]
    split_ifs with h1 h2 <;> simp_all

lemma map_replace_replace (a b : Char) (l : List Char) (hb : b ∉ l) :
    (l.map (fun c => if c = a then b else c)).map (fun c => if c = b then a else c) = l := by
  induction l with
  | nil => rfl
  | cons c t ih =>
    have hcb : c ≠ b := fun h => hb (h ▸ List.mem_cons_self c t)
    have ht : b ∉ t := fun h => hb (List.mem_cons_of_mem c h)
    by_cases hc : c = a
    · subst hc
      simp only [List.map_cons, if_pos rfl, ih ht, List.cons.injEq, and_true]
      exact if_pos rfl
    · simp only [List.map_cons, if_neg hc, if_neg hcb, ih ht]

lemma map_replace_inj (a b : Char) (l1 l2 : List Char) (h1 : b ∉ l1) (h2 : b ∉ l2)
    (h : l1.map (fun c => if c = a then b else c) = l2.map (fun c => if c = a then b else c)) :
    l1 = l2 := by
  have := congrArg (List.map (fun c => if c = b then a else c)) h
  rwa [map_replace_replace a b l1 h1, map_replace_replace a b l2 h2] at this

lemma toList_asString (l : List Char) : l.asString.toList = l := rfl

lemma string_toList_inj {s t : String} (h : s.toList = t.toList) : s = t := by
  cases s; cases t; exact congrArg String.mk h

lemma toList_replaceChar (a b : Char) (s : String) :
    (replaceChar a b s).toList = s.toList.map (fun c => if c = a then b else c) := rfl

lemma countChar_replaceChar_self (a b : Char) (hab : a ≠ b) (s : String) :
    countChar b (replaceChar a b s) = countChar b s + countChar a s := by
  simp only [countChar, toList_replaceChar]
  exact count_map_replace_self a b hab s.toList

lemma countChar_replaceChar_gone (a b : Char) (hab : a ≠ b) (s : String) :
    countChar a (replaceChar a b s) = 0 := by
  simp only [countChar, toList_replaceChar]
  exact count_map_replace_gone a b hab s.toList

lemma countChar_eq_zero_iff (a : Char) (s : String) :
    countChar a s = 0 ↔ a ∉ s.toList := List.count_eq_zero

lemma replaceChar_replaceChar (a b : Char) (s : String) (hb : countChar b s = 0) :
    replaceChar b a (replaceChar a b s) = s := by
  apply string_toList_inj
  rw [toList_replaceChar, toList_replaceChar]
  exact map_replace_replace a b s.toList ((countChar_eq_zero_iff b s).mp hb)

lemma replaceChar_inj (a b : Char) (s t : String) (hs : countChar b s = 0)
    (ht : countChar b t = 0) (h : replaceChar a b s = replaceChar a b t) : s = t := by
  apply string_toList_inj
  exact map_replace_inj a b s.toList t.toList ((countChar_eq_zero_iff b s).mp hs)
    ((countChar_eq_zero_iff b t).mp ht) (congrArg String.toList h)

lemma reformat_to_writable_ok {s : String} (h : countChar '_' s = 1) :
    reformat_ontology_term_id s true = Except.ok (replaceChar '_' ':' s) := by
  simp [reformat_ontology_term_id, h]

lemma reformat_to_internal_ok {s : String} (h : countChar ':' s = 1) :
    reformat_ontology_term_id s false = Except.ok (replaceChar ':' '_' s) := by
  simp [reformat_ontology_term_id, h]

lemma underscore_ne_colon : ('_' : Char) ≠ ':' := by decide

/-- C7: Codec round-trip bijection.  A well-formed internal ID has exactly
one underscore and no colon; a well-formed writable ID has exactly one
colon and no underscore.  On well-formed internal input, to_writable
succeeds, produces a well-formed writable ID, and to_internal maps it back;
symmetrically for well-formed writable input; and the conversion is
injective, so it is a total bijection between the two forms. -/
theorem C7_codec_round_trip :
    (∀ x : String, countChar '_' x = 1 → countChar ':' x = 0 →
      reformat_ontology_term_id x true = Except.ok (replaceChar '_' ':' x) ∧
      countChar ':' (replaceChar '_' ':' x) = 1 ∧
      countChar '_' (replaceChar '_' ':' x) = 0 ∧
      reformat_ontology_term_id (replaceChar '_' ':' x) false = Except.ok x) ∧
    (∀ y : String, countChar ':' y = 1 → countChar '_' y = 0 →
      reformat_ontology_term_id y false = Except.ok (replaceChar ':' '_' y) ∧
      countChar '_' (replaceChar ':' '_' y) = 1 ∧
      countChar ':' (replaceChar ':' '_' y) = 0 ∧
      reformat_ontology_term_id (replaceChar ':' '_' y) true = Except.ok y) ∧
    (∀ x1 x2 : String, countChar ':' x1 = 0 → countChar ':' x2 = 0 →
      replaceChar '_' ':' x1 = replaceChar '_' ':' x2 → x1 = x2) := by
  refine ⟨fun x h1 h0 => ?_, fun y h1 h0 => ?_, fun x1 x2 h1 h2 h => ?_⟩
  · have hc1 : countChar ':' (replaceChar '_' ':' x) = 1 := by
      rw [countChar_replaceChar_self '_' ':' underscore_ne_colon x, h1, h0]
    have hc0 : countChar '_' (replaceChar '_' ':' x) = 0 :=
      countChar_replaceChar_gone '_' ':' underscore_ne_colon x
    refine ⟨reformat_to_writable_ok h1, hc1, hc0, ?_⟩
    rw [reformat_to_internal_ok hc1, replaceChar_replaceChar '_' ':' x h0]
  · have hc1 : countChar '_' (replaceChar ':' '_' y) = 1 := by
      rw [countChar_replaceChar_self ':' '_' (Ne.symm underscore_ne_colon) y, h1, h0]
    have hc0 : countChar ':' (replaceChar ':' '_' y) = 0 :=
      countChar_replaceChar_gone ':' '_' (Ne.symm underscore_ne_colon) y
    refine ⟨reformat_to_internal_ok h1, hc1, hc0, ?_⟩
    rw [reformat_to_writable_ok hc1, replaceChar_replaceChar ':' '_' y h0]
  · exact replaceChar_inj '_' ':' x1 x2 h1 h2 h

/-- C7 witness at the concrete ID UBERON_0002048. -/
theorem C7_codec_round_trip_witness :
    countChar '_' "UBERON_0002048" = 1 ∧ countChar ':' "UBERON_0002048" = 0 ∧
    (reformat_ontology_term_id "UBERON_0002048" true = Except.ok "UBERON:0002048" ∧
      reformat_ontology_term_id "UBERON:0002048" false = Except.ok "UBERON_0002048") := by
  have h := C7_codec_round_trip.1 "UBERON_0002048" (by decide) (by decide)
  exact ⟨by decide, by decide, h.1, h.2.2.2⟩

/-- C8: the codec raises exactly when the separator count differs from one.
to_writable returns the input with its underscores replaced by colons when
the underscore count is one, and raises a ValueError otherwise; the two
concrete rejection examples of the specification are included; and
to_internal behaves symmetrically for colons. -/
theorem C8_codec_raises_iff :
    (∀ s : String, countChar '_' s = 1 →
      reformat_ontology_term_id s true = Except.ok (replaceChar '_' ':' s)) ∧
    (∀ s : String, countChar '_' s ≠ 1 →
      reformat_ontology_term_id s true =
        Except.error (s ++ " is an invalid ontology term id")) ∧
    (reformat_ontology_term_id "UBERON0002048" true).toOption = none ∧
    (reformat_ontology_term_id "A_B_C" true).toOption = none ∧
    (∀ s : String, countChar ':' s = 1 →
      reformat_ontology_term_id s false = Except.ok (replaceChar ':' '_' s)) ∧
    (∀ s : String, countChar ':' s ≠ 1 →
      reformat_ontology_term_id s false =
        Except.error (s ++ " is an invalid ontology term id")) := by
  refine ⟨fun s h => reformat_to_writable_ok h, fun s h => ?_, by rfl, by rfl,
    fun s h => reformat_to_internal_ok h, fun s h => ?_⟩
  · simp [reformat_ontology_term_id, h]
  · simp [reformat_ontology_term_id, h]

/-- C8 witness: success on a well-formed ID and failure on the two
rejection examples, via the theorem. -/
theorem C8_codec_raises_iff_witness :
    countChar '_' "UBERON_0002048" = 1 ∧
    reformat_ontology_term_id "UBERON_0002048" true = Except.ok "UBERON:0002048" ∧
    countChar '_' "UBERON0002048" ≠ 1 ∧
    reformat_ontology_term_id "UBERON0002048" true =
      Except.error ("UBERON0002048" ++ " is an invalid ontology term id") := by
  refine ⟨by decide, ?_, by decide, C8_codec_raises_iff.2.1 "UBERON0002048" (by decide)⟩
  exact C8_codec_raises_iff.1 "UBERON_0002048" (by decide)

/-! ## Lemmas about the set embedding and the graph -/

lemma mem_setAdd (s : List String) (x y : String) :
    y ∈ setAdd s x ↔ y ∈ s ∨ y = x := by
  unfold setAdd
  split_ifs with h
  · have hx : x ∈ s := by simpa using h
    constructor
    · exact Or.inl
    · rintro (hy | rfl)
      · exact hy
      · exact hx
  · simp

lemma setAdd_nodup {s : List String} {x : String} (h : s.Nodup) : (setAdd s x).Nodup := by
  unfold setAdd
  split_ifs with hc
  · exact h
  · have hx : x ∉ s := by simpa using hc
    simp [List.nodup_append, h, hx]

lemma mem_setUpdate (s xs : List String) (y : String) :
    y ∈ setUpdate s xs ↔ y ∈ s ∨ y ∈ xs := by
  induction xs generalizing s with
  | nil => simp [setUpdate]
  | cons x rest ih =>
    show y ∈ setUpdate (setAdd s x) rest ↔ _
    rw [ih, mem_setAdd]
    simp only [List.mem_cons]
    tauto

lemma setUpdate_nodup {s : List String} (xs : List String) (h : s.Nodup) :
    (setUpdate s xs).Nodup := by
  induction xs generalizing s with
  | nil => exact h
  | cons x rest ih => exact ih (setAdd_nodup h)

lemma mem_predecessors {g : Graph} {e x : String} :
    x ∈ g.predecessors e ↔ (x, e) ∈ g.edges := by
  unfold Graph.predecessors
  rw [List.mem_map]
  constructor
  · rintro ⟨⟨p1, p2⟩, hp, rfl⟩
    rw [List.mem_filter] at hp
    obtain ⟨hmem, hbeq⟩ := hp
    have h2 : p2 = e := by simpa using hbeq
    simpa [h2] using hmem
  · intro h
    exact ⟨(x, e), List.mem_filter.mpr ⟨h, by simp⟩, rfl⟩

lemma mem_successors {g : Graph} {e x : String} :
    x ∈ g.successors e ↔ (e, x) ∈ g.edges := by
  unfold Graph.successors
  rw [List.mem_map]
  constructor
  · rintro ⟨⟨p1, p2⟩, hp, rfl⟩
    rw [List.mem_filter] at hp
    obtain ⟨hmem, hbeq⟩ := hp
    have h1 : p1 = e := by simpa using hbeq
    simpa [h1] using hmem
  · intro h
    exact ⟨(e, x), List.mem_filter.mpr ⟨h, by simp⟩, rfl⟩

/-! ## Unfolding lemmas for the fuelled traversals -/

lemma list_ancestors_succ (g : Graph) (f : Nat) (e : String) (a : List String) :
    list_ancestors g (f + 1) e a =
      if is_cell_culture_or_organoid e then some (setAdd a e, [], [])
      else if g.has_node e then
        match trav_fold (fun x s => list_ancestors g f x s) (g.predecessors e) (setAdd a e) with
        | none => none
        | some (a2, q, d) => some (a2, e :: q, d)
      else some (setAdd a e, [e], [e]) := rfl

lemma list_descendants_succ (g : Graph) (f : Nat) (e : String) (a : List String) :
    list_descendants g (f + 1) e a =
      if is_cell_culture e || is_organoid e then some (a, [], [])
      else
        match trav_fold (fun x s => list_descendants g f x s)
            (if g.has_node e then g.successors e else [])
            (setUpdate a (if g.has_node e then g.successors e else [])) with
        | none => none
        | some (a2, q, d) =>
          some (a2, e :: q, (if g.has_node e then [] else [e]) ++ d) := rfl

/-! ## Generic lemmas about trav_fold -/

lemma trav_fold_pres (P : List String → Prop) (step : String → List String → Option TravRes)
    (hstep : ∀ e a r, P a → step e a = some r → P r.1) :
    ∀ l a r, P a → trav_fold step l a = some r → P r.1 := by
  intro l
  induction l with
  | nil =>
    intro a r ha h
    simp only [trav_fold, Option.some.injEq] at h
    rw [← h]
    exact ha
  | cons e rest ih =>
    intro a r ha h
    simp only [trav_fold] at h
    split at h
    · exact absurd h (by simp)
    · rename_i t1 a1 q1 d1 heq1
      split at h
      · exact absurd h (by simp)
      · rename_i t2 a2 q2 d2 heq2
        simp only [Option.some.injEq] at h
        rw [← h]
        exact ih a1 (a2, q2, d2) (hstep e a (a1, q1, d1) ha heq1) heq2

lemma trav_fold_isSome (step : String → List String → Option TravRes) (l : List String)
    (hl : ∀ e ∈ l, ∀ a, (step e a).isSome) :
    ∀ a, (trav_fold step l a).isSome := by
  induction l with
  | nil => intro a; simp [trav_fold]
  | cons e rest ih =>
    intro a
    obtain ⟨⟨a1, q1, d1⟩, ht⟩ :=
      Option.isSome_iff_exists.mp (hl e (List.mem_cons_self e rest) a)
    obtain ⟨⟨a2, q2, d2⟩, ht2⟩ :=
      Option.isSome_iff_exists.mp (ih (fun x hx a' => hl x (List.mem_cons_of_mem e hx) a') a1)
    simp [trav_fold, ht, ht2]

/-! ## Invariants of the closure traversals -/

/-- Accumulator sets stay duplicate-free through list_ancestors: the Python
set semantics never double-counts an ancestor in the result. -/
lemma list_ancestors_nodup (g : Graph) :
    ∀ fuel e a r, a.Nodup → list_ancestors g fuel e a = some r → r.1.Nodup := by
  intro fuel
  induction fuel with
  | zero =>
    intro e a r _ h
    simp only [list_ancestors] at h
    exact absurd h (by simp)
  | succ f ih =>
    intro e a r ha h
    rw [list_ancestors_succ] at h
    split_ifs at h with h1 h2
    · simp only [Option.some.injEq] at h
      rw [← h]
      exact setAdd_nodup ha
    · split at h
      · exact absurd h (by simp)
      · rename_i t a2 q d heq
        simp only [Option.some.injEq] at h
        rw [← h]
        have hres := trav_fold_pres List.Nodup (fun x s => list_ancestors g f x s)
          (fun e' a' r' ha' hr' => ih e' a' r' ha' hr') _ _ _ (setAdd_nodup ha) heq
        exact hres
    · simp only [Option.some.injEq] at h
      rw [← h]
      exact setAdd_nodup ha

/-- Accumulator sets stay duplicate-free through list_descendants. -/
lemma list_descendants_nodup (g : Graph) :
    ∀ fuel e a r, a.Nodup → list_descendants g fuel e a = some r → r.1.Nodup := by
  intro fuel
  induction fuel with
  | zero =>
    intro e a r _ h
    simp only [list_descendants] at h
    exact absurd h (by simp)
  | succ f ih =>
    intro e a r ha h
    rw [list_descendants_succ] at h
    by_cases h1 : (is_cell_culture e || is_organoid e) = true
    · rw [if_pos h1] at h
      simp only [Option.some.injEq] at h
      rw [← h]
      exact ha
    · rw [if_neg h1] at h
      split at h
      · exact absurd h (by simp)
      · rename_i t a2 q d heq
        simp only [Option.some.injEq] at h
        rw [← h]
        have hres := trav_fold_pres List.Nodup (fun x s => list_descendants g f x s)
          (fun e' a' r' ha' hr' => ih e' a' r' ha' hr') _ _ _ (setUpdate_nodup _ ha) heq
        exact hres

/-- Termination of list_ancestors on graphs admitting a topological rank:
when every edge increases the rank, a call on an entity of rank below the
fuel completes.  An acyclic graph always admits such a rank. -/
lemma list_ancestors_isSome (g : Graph) (rank : String → Nat)
    (hrank : ∀ p ∈ g.edges, rank p.1 < rank p.2) :
    ∀ fuel e a, rank e < fuel → (list_ancestors g fuel e a).isSome := by
  intro fuel
  induction fuel with
  | zero => intro e a h; omega
  | succ f ih =>
    intro e a h
    rw [list_ancestors_succ]
    split_ifs with h1 h2
    · simp
    · have hstep : ∀ x ∈ g.predecessors e, ∀ a',
          ((fun x s => list_ancestors g f x s) x a').isSome := by
        intro x hx a'
        have hedge : rank x < rank e := hrank _ (mem_predecessors.mp hx)
        exact ih x a' (by omega)
      obtain ⟨⟨a2, q, d⟩, ht⟩ :=
        Option.isSome_iff_exists.mp (trav_fold_isSome _ _ hstep (setAdd a e))
      simp [ht]
    · simp

/-- Termination of list_descendants on graphs admitting a reverse
topological rank: when every edge decreases the rank, a call on an entity
of rank below the fuel completes. -/
lemma list_descendants_isSome (g : Graph) (rank : String → Nat)
    (hrank : ∀ p ∈ g.edges, rank p.2 < rank p.1) :
    ∀ fuel e a, rank e < fuel → (list_descendants g fuel e a).isSome := by
  intro fuel
  induction fuel with
  | zero => intro e a h; omega
  | succ f ih =>
    intro e a h
    rw [list_descendants_succ]
    by_cases h1 : (is_cell_culture e || is_organoid e) = true
    · simp [h1]
    · rw [if_neg h1]
      by_cases h2 : g.has_node e = true
    -- has_node and missing-node branches share the pattern below
      all_goals simp only [h2, if_true, if_false, Bool.false_eq_true]
      · have hstep : ∀ x ∈ g.successors e, ∀ a',
            ((fun x s => list_descendants g f x s) x a').isSome := by
          intro x hx a'
          have hedge : rank x < rank e := hrank _ (mem_successors.mp hx)
          exact ih x a' (by omega)
        obtain ⟨⟨a2, q, d⟩, ht⟩ :=
          Option.isSome_iff_exists.mp
            (trav_fold_isSome _ _ hstep (setUpdate a (g.successors e)))
        simp [ht]
      · simp [trav_fold]

/-! ## Concrete graphs for the diamond and cycle scenarios -/

/-- Diamond graph with edges A to B, B to C, A to C. -/
def diamondG : Graph := ⟨["A", "B", "C"], [("A", "B"), ("B", "C"), ("A", "C")]⟩

/-- Two-cycle graph with edges A to B and B to A. -/
def cycleG : Graph := ⟨["A", "B"], [("A", "B"), ("B", "A")]⟩

/-- On the two-cycle, list_ancestors exhausts every finite recursion
budget: the unguarded recursion never terminates. -/
lemma cycle_ancestors_none : ∀ fuel (a : List String),
    list_ancestors cycleG fuel "A" a = none ∧ list_ancestors cycleG fuel "B" a = none := by
  intro fuel
  induction fuel with
  | zero => intro a; exact ⟨rfl, rfl⟩
  | succ f ih =>
    have eA1 : is_cell_culture_or_organoid "A" = false := by decide
    have eA2 : cycleG.has_node "A" = true := by decide
    have eA3 : cycleG.predecessors "A" = ["B"] := by decide
    have eB1 : is_cell_culture_or_organoid "B" = false := by decide
    have eB2 : cycleG.has_node "B" = true := by decide
    have eB3 : cycleG.predecessors "B" = ["A"] := by decide
    intro a
    constructor
    · rw [list_ancestors_succ, eA1, eA3]
      simp only [Bool.false_eq_true, if_false, eA2, if_true, trav_fold,
        (ih (setAdd a "A")).2]
    · rw [list_ancestors_succ, eB1, eB3]
      simp only [Bool.false_eq_true, if_false, eB2, if_true, trav_fold,
        (ih (setAdd a "B")).1]

/-- On the two-cycle, list_descendants exhausts every finite recursion
budget as well. -/
lemma cycle_descendants_none : ∀ fuel (a : List String),
    list_descendants cycleG fuel "A" a = none ∧ list_descendants cycleG fuel "B" a = none := by
  intro fuel
  induction fuel with
  | zero => intro a; exact ⟨rfl, rfl⟩
  | succ f ih =>
    have eA1 : (is_cell_culture "A" || is_organoid "A") = false := by decide
    have eA2 : cycleG.has_node "A" = true := by decide
    have eA3 : cycleG.successors "A" = ["B"] := by decide
    have eB1 : (is_cell_culture "B" || is_organoid "B") = false := by decide
    have eB2 : cycleG.has_node "B" = true := by decide
    have eB3 : cycleG.successors "B" = ["A"] := by decide
    intro a
    constructor
    · rw [list_descendants_succ, eA1]
      simp only [Bool.false_eq_true, if_false, eA2, if_true, eA3, trav_fold,
        (ih (setUpdate a ["B"])).2]
    · rw [list_descendants_succ, eB1]
      simp only [Bool.false_eq_true, if_false, eB2, if_true, eB3, trav_fold,
        (ih (setUpdate a ["A"])).1]

/-! ## Claims C2, C3 and C9 -/

/-- C2 counterexample: on the diamond graph (edges A to B, B to C, A to C),
the call ancestors_of(C) queries the predecessors of A twice, once per
path, so the claim that no node's predecessors are queried more than once
within the call is false. -/
theorem C2_ancestors_diamond_counterexample :
    list_ancestors diamondG 10 "C" [] =
      some (["C", "B", "A"], ["C", "B", "A", "A"], []) ∧
    (["C", "B", "A", "A"] : List String).count "A" = 2 ∧
    ¬ (["C", "B", "A", "A"] : List String).Nodup := by decide

/-- C2 (amended): on the diamond graph, ancestors_of(C) returns exactly
the set of A, B and C, without duplicates in the result, and the call
terminates; however node A's predecessors are queried twice (once per
path), because the recursion has no visited guard. -/
theorem C2_ancestors_diamond :
    list_ancestors diamondG 10 "C" [] =
      some (["C", "B", "A"], ["C", "B", "A", "A"], []) ∧
    (["C", "B", "A"] : List String).toFinset = {"A", "B", "C"} ∧
    (["C", "B", "A"] : List String).Nodup ∧
    (["C", "B", "A", "A"] : List String).count "A" = 2 := by decide

/-- C3 counterexample: list_descendants has no visited guard either: on
the diamond graph, descendants_of(A) queries the successors of C twice,
so the claim that both traversals guard against revisiting nodes within a
single call is false. -/
theorem C3_memoization_counterexample :
    list_descendants diamondG 10 "A" [] =
      some (["B", "C"], ["A", "B", "C", "C"], []) ∧
    (["A", "B", "C", "C"] : List String).count "C" = 2 ∧
    ¬ (["A", "B", "C", "C"] : List String).Nodup := by decide

/-- C3 (amended): neither traversal guards against revisiting nodes.
On the two-cycle graph both calls exhaust every finite recursion budget
(the unguarded recursion does not terminate on cyclic graphs); on the
diamond a node reachable along two paths is re-traversed; nevertheless the
accumulator-set semantics keep the returned set free of duplicates, and on
any graph admitting a topological rank (in particular every acyclic graph)
a call with fuel exceeding the start node's rank terminates. -/
theorem C3_traversals_not_guarded :
    (∀ (fuel : Nat) (a : List String), list_ancestors cycleG fuel "A" a = none) ∧
    (∀ (fuel : Nat) (a : List String), list_descendants cycleG fuel "A" a = none) ∧
    (list_descendants diamondG 10 "A" [] =
      some (["B", "C"], ["A", "B", "C", "C"], []) ∧
      (["A", "B", "C", "C"] : List String).count "C" = 2) ∧
    (∀ (g : Graph) (fuel : Nat) (e : String) (a : List String) (r : TravRes),
      a.Nodup → list_ancestors g fuel e a = some r → r.1.Nodup) ∧
    (∀ (g : Graph) (fuel : Nat) (e : String) (a : List String) (r : TravRes),
      a.Nodup → list_descendants g fuel e a = some r → r.1.Nodup) ∧
    (∀ (g : Graph) (rank : String → Nat), (∀ p ∈ g.edges, rank p.1 < rank p.2) →
      ∀ (fuel : Nat) (e : String) (a : List String),
        rank e < fuel → (list_ancestors g fuel e a).isSome) ∧
    (∀ (g : Graph) (rank : String → Nat), (∀ p ∈ g.edges, rank p.2 < rank p.1) →
      ∀ (fuel : Nat) (e : String) (a : List String),
        rank e < fuel → (list_descendants g fuel e a).isSome) := by
  exact ⟨fun fuel a => (cycle_ancestors_none fuel a).1,
    fun fuel a => (cycle_descendants_none fuel a).1,
    ⟨by decide, by decide⟩,
    fun g fuel e a r => list_ancestors_nodup g fuel e a r,
    fun g fuel e a r => list_descendants_nodup g fuel e a r,
    fun g rank h fuel e a => list_ancestors_isSome g rank h fuel e a,
    fun g rank h fuel e a => list_descendants_isSome g rank h fuel e a⟩

/-- C3 witness: the termination and no-double-count conjuncts applied on
the diamond graph with the evident rank. -/
theorem C3_traversals_not_guarded_witness :
    (list_ancestors diamondG 3 "C" []).isSome ∧ (["C", "B", "A"] : List String).Nodup := by
  constructor
  · exact C3_traversals_not_guarded.2.2.2.2.2.1 diamondG
      (fun s => if s = "A" then 0 else if s = "B" then 1 else 2) (by decide) 3 "C" []
      (by decide)
  · exact C3_traversals_not_guarded.2.2.2.1 diamondG 10 "C" []
      (["C", "B", "A"], ["C", "B", "A", "A"], []) (by decide) (by decide)

/-- C9 counterexample: a missing term whose name carries an organoid
qualifier returns its singleton silently: the diagnostic log is empty,
though the claim promises a diagnostic for every missing term. -/
theorem C9_missing_term_counterexample :
    Graph.empty.has_node "X_1 (organoid)" = false ∧
    list_ancestors Graph.empty 5 "X_1 (organoid)" [] =
      some (["X_1 (organoid)"], [], []) := by decide

/-- C9 (amended): on any graph not containing the queried term,
list_ancestors returns the singleton of the term without raising, with a
diagnostic exactly when the term is not a cell-culture/organoid variant
(variant names return before the lookup, silently); list_descendants
treats the missing term as having no descendants and is likewise
non-fatal, again with the diagnostic only for non-variant names. -/
theorem C9_missing_term_graceful :
    (∀ (g : Graph) (fuel : Nat) (e : String), g.has_node e = false →
      is_cell_culture_or_organoid e = false →
      list_ancestors g (fuel + 1) e [] = some ([e], [e], [e])) ∧
    (∀ (g : Graph) (fuel : Nat) (e : String),
      is_cell_culture_or_organoid e = true →
      list_ancestors g (fuel + 1) e [] = some ([e], [], [])) ∧
    (∀ (g : Graph) (fuel : Nat) (e : String), g.has_node e = false →
      (is_cell_culture e || is_organoid e) = false →
      list_descendants g (fuel + 1) e [] = some ([], [e], [e])) ∧
    (∀ (g : Graph) (fuel : Nat) (e : String),
      (is_cell_culture e || is_organoid e) = true →
      list_descendants g (fuel + 1) e [] = some ([], [], [])) := by
  refine ⟨fun g fuel e h1 h2 => ?_, fun g fuel e h => ?_,
    fun g fuel e h1 h2 => ?_, fun g fuel e h => ?_⟩
  · rw [list_ancestors_succ]
    simp [h1, h2, setAdd]
  · rw [list_ancestors_succ]
    simp [h, setAdd]
  · rw [list_descendants_succ]
    simp [h1, h2, trav_fold, setUpdate]
  · rw [list_descendants_succ]
    simp [h]

/-- C9 witness: the missing term UNKNOWN_0000001 on the empty graph,
via the theorem. -/
theorem C9_missing_term_graceful_witness :
    Graph.empty.has_node "UNKNOWN_0000001" = false ∧
    list_ancestors Graph.empty 5 "UNKNOWN_0000001" [] =
      some (["UNKNOWN_0000001"], ["UNKNOWN_0000001"], ["UNKNOWN_0000001"]) ∧
    list_descendants Graph.empty 5 "UNKNOWN_0000001" [] =
      some ([], ["UNKNOWN_0000001"], ["UNKNOWN_0000001"]) := by
  refine ⟨by decide, ?_, ?_⟩
  · exact C9_missing_term_graceful.1 Graph.empty 4 "UNKNOWN_0000001" (by decide) (by decide)
  · exact C9_missing_term_graceful.2.2.1 Graph.empty 4 "UNKNOWN_0000001" (by decide) (by decide)

/-! ## Claim C4: subgraph building -/

lemma nodes_add_node (g : Graph) (n : String) :
    (g.add_node n).nodes = setAdd g.nodes n := by
  unfold Graph.add_node setAdd
  split_ifs <;> rfl

lemma edges_add_node (g : Graph) (n : String) : (g.add_node n).edges = g.edges := by
  unfold Graph.add_node
  split_ifs <;> rfl

lemma nodes_add_edge (g : Graph) (u v : String) :
    (g.add_edge u v).nodes = setAdd (setAdd g.nodes u) v := by
  simp only [Graph.add_edge]
  split_ifs with h <;> simp [nodes_add_node]

lemma edges_add_edge_sub (g : Graph) (u v : String) :
    ∀ p ∈ g.edges, p ∈ (g.add_edge u v).edges := by
  intro p hp
  simp only [Graph.add_edge]
  split_ifs with h
  · simpa [edges_add_node] using hp
  · simp only [edges_add_node, List.mem_append]
    exact Or.inl hp

lemma add_edge_conn (g : Graph) (u v : String) :
    (u, v) ∈ (g.add_edge u v).edges ∨ (v, u) ∈ (g.add_edge u v).edges := by
  simp only [Graph.add_edge]
  split_ifs with h
  · simp only [edges_add_node, Bool.or_eq_true] at h ⊢
    rcases h with h | h
    · exact Or.inl (by simpa using h)
    · exact Or.inr (by simpa using h)
  · simp [edges_add_node]

lemma has_node_true_iff (g : Graph) (n : String) : g.has_node n = true ↔ n ∈ g.nodes := by
  simp [Graph.has_node]

lemma has_node_false_iff (g : Graph) (n : String) : g.has_node n = false ↔ n ∉ g.nodes := by
  simp [Graph.has_node]

lemma mem_nodes_add_edge (g : Graph) (u v x : String) :
    x ∈ (g.add_edge u v).nodes ↔ x ∈ g.nodes ∨ x = u ∨ x = v := by
  rw [nodes_add_edge, mem_setAdd, mem_setAdd]
  tauto

/-- Invariant of one pass of children_fold, parametric in the expansion
function: nodes and edges grow monotonically, every logged entity ends up
in the graph, no logged entity was in the graph before the pass, and the
log is duplicate-free. -/
lemma children_fold_inv (expand : String → Graph → Graph × List String)
    (hexp : ∀ c g,
      (∀ x ∈ g.nodes, x ∈ (expand c g).1.nodes) ∧
      (∀ p ∈ g.edges, p ∈ (expand c g).1.edges) ∧
      (∀ x ∈ (expand c g).2, x ∈ (expand c g).1.nodes) ∧
      (∀ x ∈ (expand c g).2, x = c ∨ x ∉ g.nodes) ∧
      ((expand c g).2).Nodup)
    (parent : String) :
    ∀ (cs : List String) (g : Graph),
      (∀ x ∈ g.nodes, x ∈ (children_fold expand parent cs g).1.nodes) ∧
      (∀ p ∈ g.edges, p ∈ (children_fold expand parent cs g).1.edges) ∧
      (∀ x ∈ (children_fold expand parent cs g).2,
        x ∈ (children_fold expand parent cs g).1.nodes) ∧
      (∀ x ∈ (children_fold expand parent cs g).2, x ∉ g.nodes) ∧
      ((children_fold expand parent cs g).2).Nodup := by
  intro cs
  induction cs with
  | nil =>
    intro g
    exact ⟨fun x hx => hx, fun p hp => hp, by simp [children_fold],
      by simp [children_fold], by simp [children_fold]⟩
  | cons c rest ih =>
    intro g
    show _ ∧ _
    unfold children_fold
    by_cases hv : g.has_node c = true
    · rw [if_pos hv]
      obtain ⟨m1, m2, m3, m4, m5⟩ := ih (g.add_edge parent c)
      refine ⟨fun x hx => m1 x ?_, fun p hp => m2 p (edges_add_edge_sub _ _ _ p hp),
        m3, fun x hx hg => m4 x hx ?_, m5⟩
      · rw [mem_nodes_add_edge]
        exact Or.inl hx
      · rw [mem_nodes_add_edge]
        exact Or.inl hg
    · rw [if_neg hv]
      have hcg : c ∉ g.nodes := (has_node_false_iff g c).mp (by simpa using hv)
      obtain ⟨e1, e2, e3, e4, e5⟩ := hexp c (g.add_edge parent c)
      obtain ⟨m1, m2, m3, m4, m5⟩ := ih (expand c (g.add_edge parent c)).1
      refine ⟨fun x hx => m1 x (e1 x ?_), fun p hp => m2 p (e2 p (edges_add_edge_sub _ _ _ p hp)),
        ?_, ?_, ?_⟩
      · rw [mem_nodes_add_edge]
        exact Or.inl hx
      · intro x hx
        rw [List.mem_append] at hx
        rcases hx with hx | hx
        · exact m1 x (e3 x hx)
        · exact m3 x hx
      · intro x hx hg
        rw [List.mem_append] at hx
        rcases hx with hx | hx
        · rcases e4 x hx with rfl | hnot
          · exact hcg hg
          · exact hnot (by rw [mem_nodes_add_edge]; exact Or.inl hg)
        · exact m4 x hx (e1 x (by rw [mem_nodes_add_edge]; exact Or.inl hg))
      · rw [List.nodup_append]
        refine ⟨e5, m5, fun x hx1 hx2 => m4 x hx2 (e3 x hx1)⟩

/-- Invariant of build_descendants_graph: nodes and edges grow, the query
log lands in the final node set, every logged entity other than the root
was absent from the starting graph, and the query log has no duplicates:
within a single anchor expansion no node's children are queried twice. -/
lemma build_descendants_graph_inv (subclasses : String → List String) :
    ∀ (fuel : Nat) (r : String) (g : Graph),
      (∀ x ∈ g.nodes, x ∈ (build_descendants_graph subclasses fuel r g).1.nodes) ∧
      (∀ p ∈ g.edges, p ∈ (build_descendants_graph subclasses fuel r g).1.edges) ∧
      (∀ x ∈ (build_descendants_graph subclasses fuel r g).2,
        x ∈ (build_descendants_graph subclasses fuel r g).1.nodes) ∧
      (∀ x ∈ (build_descendants_graph subclasses fuel r g).2, x = r ∨ x ∉ g.nodes) ∧
      ((build_descendants_graph subclasses fuel r g).2).Nodup := by
  intro fuel
  induction fuel with
  | zero =>
    intro r g
    exact ⟨fun x hx => hx, fun p hp => hp, by simp [build_descendants_graph],
      by simp [build_descendants_graph], by simp [build_descendants_graph]⟩
  | succ f ih =>
    intro r g
    obtain ⟨m1, m2, m3, m4, m5⟩ :=
      children_fold_inv (fun c h => build_descendants_graph subclasses f c h)
        (fun c h => ih c h) r (subclasses r) (g.add_node r)
    have hrg : r ∈ (g.add_node r).nodes := by
      rw [nodes_add_node]
      exact (mem_setAdd _ _ _).mpr (Or.inr rfl)
    show _ ∧ _
    unfold build_descendants_graph
    refine ⟨fun x hx => m1 x ?_, fun p hp => by rw [← edges_add_node g r] at hp; exact m2 p hp,
      ?_, ?_, ?_⟩
    · rw [nodes_add_node]
      exact (mem_setAdd _ _ _).mpr (Or.inl hx)
    · intro x hx
      rcases List.mem_cons.mp hx with rfl | hx
      · exact m1 x hrg
      · exact m3 x hx
    · intro x hx
      rcases List.mem_cons.mp hx with rfl | hx
      · exact Or.inl rfl
      · refine Or.inr fun hg => m4 x hx ?_
        rw [nodes_add_node]
        exact (mem_setAdd _ _ _).mpr (Or.inl hg)
    · rw [List.nodup_cons]
      exact ⟨fun hr => m4 r hr hrg, m5⟩

lemma children_fold_edges_mono (expand : String → Graph → Graph × List String)
    (hmono : ∀ c g, ∀ p ∈ g.edges, p ∈ (expand c g).1.edges) (parent : String) :
    ∀ (cs : List String) (g : Graph), ∀ p ∈ g.edges,
      p ∈ (children_fold expand parent cs g).1.edges := by
  intro cs
  induction cs with
  | nil => intro g p hp; exact hp
  | cons c rest ih =>
    intro g p hp
    simp only [children_fold]
    split_ifs with hv
    · exact ih _ p (edges_add_edge_sub _ _ _ p hp)
    · exact ih _ p (hmono c _ p (edges_add_edge_sub _ _ _ p hp))

/-- Every child reported by the provider receives an edge from the parent
during children_fold (kept in one of the two orientations a strict graph
can store), even when the child was already visited. -/
lemma children_fold_edges (expand : String → Graph → Graph × List String)
    (hmono : ∀ c g, ∀ p ∈ g.edges, p ∈ (expand c g).1.edges) (parent : String) :
    ∀ (cs : List String) (g : Graph), ∀ c ∈ cs,
      (parent, c) ∈ (children_fold expand parent cs g).1.edges ∨
      (c, parent) ∈ (children_fold expand parent cs g).1.edges := by
  intro cs
  induction cs with
  | nil => intro g c hc; exact absurd hc (by simp)
  | cons c0 rest ih =>
    intro g c hc
    simp only [children_fold]
    rcases List.mem_cons.mp hc with rfl | hc
    · rcases add_edge_conn g parent c with h | h
      · split_ifs with hv
        · exact Or.inl (children_fold_edges_mono expand hmono parent rest _ _ h)
        · exact Or.inl (children_fold_edges_mono expand hmono parent rest _ _
            (hmono c _ _ h))
      · split_ifs with hv
        · exact Or.inr (children_fold_edges_mono expand hmono parent rest _ _ h)
        · exact Or.inr (children_fold_edges_mono expand hmono parent rest _ _
            (hmono c _ _ h))
    · split_ifs with hv
      · exact ih _ c hc
      · exact ih _ c hc

/-- The provider used in the concrete C4 scenario: A has the single child
B, every other entity has no children. -/
def chAB : String → List String := fun s => if s = "A" then ["B"] else []

/-- C4 counterexample: build_graph_for_cell_types with anchors A and B,
where B is a child of A, queries the children of B twice: once while
expanding A and once more when the anchor loop reaches B, because the
anchor loop never checks whether an anchor was already visited. -/
theorem C4_no_reexpansion_counterexample :
    (build_graph_for_cell_types chAB 10 ["A", "B"]).2 = ["A", "B", "B"] ∧
    ((build_graph_for_cell_types chAB 10 ["A", "B"]).2).count "B" = 2 ∧
    ¬ ((build_graph_for_cell_types chAB 10 ["A", "B"]).2).Nodup := by decide

/-- C4 (amended): within a single recursive expansion of one anchor no
node's children are queried twice (the query log of a
build_descendants_graph call is duplicate-free), and every reported child
receives an edge from the parent even when already visited; but
build_graph_for_cell_types re-invokes the expansion for every anchor in
the list unconditionally, so an anchor already reached from an earlier
anchor is expanded again, once per anchor-list occurrence. -/
theorem C4_no_reexpansion :
    (∀ (subclasses : String → List String) (fuel : Nat) (r : String) (g : Graph),
      ((build_descendants_graph subclasses fuel r g).2).Nodup) ∧
    (∀ (subclasses : String → List String) (fuel : Nat) (r : String) (g : Graph),
      ∀ c ∈ subclasses r,
        (r, c) ∈ (build_descendants_graph subclasses (fuel + 1) r g).1.edges ∨
        (c, r) ∈ (build_descendants_graph subclasses (fuel + 1) r g).1.edges) ∧
    ((build_graph_for_cell_types chAB 10 ["A", "B"]).2 = ["A", "B", "B"] ∧
      ((build_graph_for_cell_types chAB 10 ["A", "B"]).2).count "B" = 2) := by
  refine ⟨fun subclasses fuel r g => (build_descendants_graph_inv subclasses fuel r g).2.2.2.2,
    fun subclasses fuel r g c hc => ?_, by decide, by decide⟩
  show _ ∨ _
  unfold build_descendants_graph
  exact children_fold_edges (fun c h => build_descendants_graph subclasses fuel c h)
    (fun c h => (build_descendants_graph_inv subclasses fuel c h).2.1) r
    (subclasses r) (g.add_node r) c hc

/-- C4 witness: the edge conjunct applied to the concrete provider. -/
theorem C4_no_reexpansion_witness :
    ("A", "B") ∈ (build_descendants_graph chAB 10 "A" Graph.empty).1.edges ∨
    ("B", "A") ∈ (build_descendants_graph chAB 10 "A" Graph.empty).1.edges :=
  C4_no_reexpansion.2.1 chAB 9 "A" Graph.empty "B" (by decide)

/-! ## Lemmas about the dict embedding -/

lemma dlookup_nil {α : Type} (k : String) : dlookup k ([] : List (String × α)) = none := rfl

lemma dlookup_cons {α : Type} (k : String) (p : String × α) (d : List (String × α)) :
    dlookup k (p :: d) = if p.1 = k then some p.2 else dlookup k d := by
  unfold dlookup
  by_cases h : p.1 = k
  · rw [List.find?_cons_of_pos _ (by simpa using h), if_pos h]
    rfl
  · rw [List.find?_cons_of_neg _ (by simpa using h), if_neg h]

lemma dlookup_map_overwrite {α : Type} (k k' : String) (v : α) (d : List (String × α))
    (h : k' ≠ k) :
    dlookup k' (d.map (fun p => if p.1 == k then (k, v) else p)) = dlookup k' d := by
  induction d with
  | nil => rfl
  | cons p d ih =>
    by_cases hp : p.1 = k
    · have h1 : ¬ ((k, v).1 = k') := fun hk => h hk.symm
      have h2 : ¬ (p.1 = k') := fun hk => h (hk.symm.trans hp)
      rw [List.map_cons, if_pos (by simpa using hp), dlookup_cons, dlookup_cons,
        if_neg h1, if_neg h2, ih]
    · rw [List.map_cons, if_neg (by simpa using hp), dlookup_cons, dlookup_cons]
      by_cases hk : p.1 = k'
      · rw [if_pos hk, if_pos hk]
      · rw [if_neg hk, if_neg hk, ih]

lemma dlookup_map_overwrite_self {α : Type} (k : String) (v : α) (d : List (String × α))
    (h : d.any (fun p => p.1 == k) = true) :
    dlookup k (d.map (fun p => if p.1 == k then (k, v) else p)) = some v := by
  induction d with
  | nil => simp at h
  | cons p d ih =>
    by_cases hp : p.1 = k
    · rw [List.map_cons, if_pos (by simpa using hp), dlookup_cons, if_pos rfl]
    · rw [List.map_cons, if_neg (by simpa using hp), dlookup_cons, if_neg hp]
      refine ih ?_
      rcases List.any_eq_true.mp h with ⟨q, hq, hqk⟩
      rcases List.mem_cons.mp hq with rfl | hq
      · exact absurd (by simpa using hqk) hp
      · exact List.any_eq_true.mpr ⟨q, hq, hqk⟩

lemma dlookup_append_single {α : Type} (k k' : String) (v : α) (d : List (String × α)) :
    dlookup k' (d ++ [(k, v)]) =
      match dlookup k' d with
      | some w => some w
      | none => if k = k' then some v else none := by
  induction d with
  | nil =>
    rw [List.nil_append, dlookup_cons, dlookup_nil]
  | cons p d ih =>
    rw [List.cons_append, dlookup_cons, dlookup_cons]
    by_cases h : p.1 = k'
    · rw [if_pos h, if_pos h]
    · rw [if_neg h, if_neg h, ih]

/-- Python dict semantics of dinsert: inserting k rebinds k and leaves
every other key unchanged. -/
lemma dlookup_dinsert {α : Type} (k k' : String) (v : α) (d : List (String × α)) :
    dlookup k' (dinsert k v d) = if k' = k then some v else dlookup k' d := by
  unfold dinsert
  by_cases hany : d.any (fun p => p.1 == k) = true
  · rw [if_pos hany]
    by_cases hk : k' = k
    · rw [if_pos hk, hk, dlookup_map_overwrite_self k v d hany]
    · rw [if_neg hk, dlookup_map_overwrite k k' v d hk]
  · rw [if_neg hany, dlookup_append_single]
    have hmiss : dlookup k d = none := by
      unfold dlookup
      rw [List.find?_eq_none.mpr]
      · rfl
      · intro p hp
        simp only [Bool.not_eq_true]
        by_contra hc
        exact hany (List.any_eq_true.mpr ⟨p, hp, by simpa using hc⟩)
    by_cases hk : k' = k
    · rw [if_pos hk, hk, hmiss, if_pos rfl]
    · rw [if_neg hk]
      cases hd : dlookup k' d
      · rw [if_neg (fun h => hk h.symm)]
      · rfl

/-! ## Claim C5: the organoid index and the splice -/

/-- Soundness of the organoid index, with an arbitrary starting
accumulator: every binding comes from the accumulator or from an organoid
name of the list, keyed by its stem. -/
lemma key_organoids_aux_sound :
    ∀ (names : List String) (acc : List (String × String)) (s v : String),
      dlookup s (names.foldl (fun d entity_name =>
        if is_organoid entity_name then
          dinsert (replaceRemove entity_name " (organoid)") entity_name d
        else d) acc) = some v →
      (v ∈ names ∧ is_organoid v = true ∧ s = replaceRemove v " (organoid)") ∨
        dlookup s acc = some v := by
  intro names
  induction names with
  | nil => intro acc s v h; exact Or.inr h
  | cons n rest ih =>
    intro acc s v h
    rw [List.foldl_cons] at h
    rcases ih _ s v h with ⟨h1, h2, h3⟩ | hacc
    · exact Or.inl ⟨List.mem_cons_of_mem n h1, h2, h3⟩
    · by_cases ho : is_organoid n = true
      · rw [if_pos ho, dlookup_dinsert] at hacc
        by_cases hs : s = replaceRemove n " (organoid)"
        · rw [if_pos hs] at hacc
          have hn := Option.some.inj hacc
          subst hn
          exact Or.inl ⟨List.mem_cons_self _ _, ho, hs⟩
        · rw [if_neg hs] at hacc
          exact Or.inr hacc
      · rw [if_neg ho] at hacc
        exact Or.inr hacc

/-- Folding more names over an accumulator never drops a bound key: the
binding survives, possibly overwritten by a later organoid of the list. -/
lemma key_organoids_aux_pres :
    ∀ (names : List String) (acc : List (String × String)) (s w0 : String),
      dlookup s acc = some w0 →
      ∃ w, dlookup s (names.foldl (fun d entity_name =>
          if is_organoid entity_name then
            dinsert (replaceRemove entity_name " (organoid)") entity_name d
          else d) acc) = some w ∧
        (w = w0 ∨ (w ∈ names ∧ is_organoid w = true)) := by
  intro names
  induction names with
  | nil => intro acc s w0 h; exact ⟨w0, h, Or.inl rfl⟩
  | cons n rest ih =>
    intro acc s w0 h
    rw [List.foldl_cons]
    by_cases ho : is_organoid n = true
    · rw [if_pos ho]
      by_cases hs : s = replaceRemove n " (organoid)"
      · have hnew : dlookup s (dinsert (replaceRemove n " (organoid)") n acc) = some n := by
          rw [dlookup_dinsert, if_pos hs]
        obtain ⟨w, hw, hcase⟩ := ih _ s n hnew
        refine ⟨w, hw, Or.inr ?_⟩
        rcases hcase with rfl | ⟨hmem, horg⟩
        · exact ⟨List.mem_cons_self _ _, ho⟩
        · exact ⟨List.mem_cons_of_mem _ hmem, horg⟩
      · have hkeep : dlookup s (dinsert (replaceRemove n " (organoid)") n acc) = some w0 := by
          rw [dlookup_dinsert, if_neg hs]
          exact h
        obtain ⟨w, hw, hcase⟩ := ih _ s w0 hkeep
        refine ⟨w, hw, ?_⟩
        rcases hcase with rfl | ⟨hmem, horg⟩
        · exact Or.inl rfl
        · exact Or.inr ⟨List.mem_cons_of_mem n hmem, horg⟩
    · rw [if_neg ho]
      obtain ⟨w, hw, hcase⟩ := ih _ s w0 h
      refine ⟨w, hw, ?_⟩
      rcases hcase with rfl | ⟨hmem, horg⟩
      · exact Or.inl rfl
      · exact Or.inr ⟨List.mem_cons_of_mem n hmem, horg⟩

/-- Completeness of the organoid index over any accumulator: every
organoid name of the list leaves its stem bound to some organoid name of
the list. -/
lemma key_organoids_aux_complete :
    ∀ (names : List String) (acc : List (String × String)) (v : String),
      v ∈ names → is_organoid v = true →
      ∃ w, dlookup (replaceRemove v " (organoid)")
          (names.foldl (fun d entity_name =>
            if is_organoid entity_name then
              dinsert (replaceRemove entity_name " (organoid)") entity_name d
            else d) acc) = some w ∧
        is_organoid w = true ∧ w ∈ names := by
  intro names
  induction names with
  | nil => intro acc v hv; exact absurd hv (by simp)
  | cons n rest ih =>
    intro acc v hv ho
    rw [List.foldl_cons]
    rcases List.mem_cons.mp hv with rfl | hv'
    · rw [if_pos ho]
      have hnew : dlookup (replaceRemove v " (organoid)")
          (dinsert (replaceRemove v " (organoid)") v acc) = some v := by
        rw [dlookup_dinsert, if_pos rfl]
      obtain ⟨w, hw, hcase⟩ := key_organoids_aux_pres rest _ _ v hnew
      refine ⟨w, hw, ?_⟩
      rcases hcase with rfl | ⟨hmem, horg⟩
      · exact ⟨ho, List.mem_cons_self _ _⟩
      · exact ⟨horg, List.mem_cons_of_mem _ hmem⟩
    · obtain ⟨w, hw, horg, hmem⟩ := ih _ v hv' ho
      exact ⟨w, hw, horg, List.mem_cons_of_mem n hmem⟩

/-- Completeness of the organoid index as used by the source. -/
lemma key_organoids_complete (names : List String) (v : String) (hv : v ∈ names)
    (ho : is_organoid v = true) :
    ∃ w, dlookup (replaceRemove v " (organoid)") (key_organoids_by_ontology_term_id names) =
        some w ∧ is_organoid w = true ∧ w ∈ names :=
  key_organoids_aux_complete names [] v hv ho

/-- Membership in the filtered-descendant list: an element is either a
descendant kept by the accept list, or the organoid name of a descendant
that is a key of the organoid index. -/
lemma mem_descendant_accepts (accept : List String) (org : List (String × String)) :
    ∀ (descs : List String) (x : String),
      x ∈ descendant_accepts accept org descs ↔
        (x ∈ descs ∧ x ∈ accept) ∨ ∃ d ∈ descs, dlookup d org = some x := by
  intro descs
  induction descs with
  | nil => intro x; simp [descendant_accepts]
  | cons d rest ih =>
    intro x
    unfold descendant_accepts
    by_cases hd : d ∈ accept
    · cases hlk : dlookup d org with
      | some v =>
        simp only [List.mem_append, ih, if_pos (by simpa using hd : accept.contains d = true),
          List.mem_singleton, List.mem_cons, List.not_mem_nil, or_false, false_or]
        constructor
        · rintro ((rfl | rfl) | ⟨hx, hxa⟩ | ⟨d', hd', hlk'⟩)
          · exact Or.inl ⟨Or.inl rfl, hd⟩
          · exact Or.inr ⟨d, Or.inl rfl, hlk⟩
          · exact Or.inl ⟨Or.inr hx, hxa⟩
          · exact Or.inr ⟨d', Or.inr hd', hlk'⟩
        · rintro (⟨rfl | hx, hxa⟩ | ⟨d', rfl | hd', hlk'⟩)
          · exact Or.inl (Or.inl rfl)
          · exact Or.inr (Or.inl ⟨hx, hxa⟩)
          · rw [hlk] at hlk'
            exact Or.inl (Or.inr (Option.some.inj hlk').symm)
          · exact Or.inr (Or.inr ⟨d', hd', hlk'⟩)
      | none =>
        simp only [List.mem_append, ih, if_pos (by simpa using hd : accept.contains d = true),
          List.mem_singleton, List.mem_cons, List.not_mem_nil, or_false, false_or]
        constructor
        · rintro (rfl | ⟨hx, hxa⟩ | ⟨d', hd', hlk'⟩)
          · exact Or.inl ⟨Or.inl rfl, hd⟩
          · exact Or.inl ⟨Or.inr hx, hxa⟩
          · exact Or.inr ⟨d', Or.inr hd', hlk'⟩
        · rintro (⟨rfl | hx, hxa⟩ | ⟨d', rfl | hd', hlk'⟩)
          · exact Or.inl rfl
          · exact Or.inr (Or.inl ⟨hx, hxa⟩)
          · rw [hlk] at hlk'
            exact absurd hlk' (by simp)
          · exact Or.inr (Or.inr ⟨d', hd', hlk'⟩)
    · cases hlk : dlookup d org with
      | some v =>
        simp only [List.mem_append, ih,
          if_neg (by simpa using hd : ¬ accept.contains d = true),
          List.mem_singleton, List.mem_cons, List.not_mem_nil, or_false, false_or]
        constructor
        · rintro (rfl | ⟨hx, hxa⟩ | ⟨d', hd', hlk'⟩)
          · exact Or.inr ⟨d, Or.inl rfl, hlk⟩
          · exact Or.inl ⟨Or.inr hx, hxa⟩
          · exact Or.inr ⟨d', Or.inr hd', hlk'⟩
        · rintro (⟨rfl | hx, hxa⟩ | ⟨d', rfl | hd', hlk'⟩)
          · exact absurd hxa hd
          · exact Or.inr (Or.inl ⟨hx, hxa⟩)
          · rw [hlk] at hlk'
            exact Or.inl (Option.some.inj hlk').symm
          · exact Or.inr (Or.inr ⟨d', hd', hlk'⟩)
      | none =>
        simp only [List.mem_append, ih,
          if_neg (by simpa using hd : ¬ accept.contains d = true),
          List.mem_singleton, List.mem_cons, List.not_mem_nil, or_false, false_or]
        constructor
        · rintro (⟨hx, hxa⟩ | ⟨d', hd', hlk'⟩)
          · exact Or.inl ⟨Or.inr hx, hxa⟩
          · exact Or.inr ⟨d', Or.inr hd', hlk'⟩
        · rintro (⟨rfl | hx, hxa⟩ | ⟨d', rfl | hd', hlk'⟩)
          · exact absurd hxa hd
          · exact Or.inl ⟨hx, hxa⟩
          · rw [hlk] at hlk'
            exact absurd hlk' (by simp)
          · exact Or.inr ⟨d', hd', hlk'⟩

/-- Membership in the full descendant_accept_list of one entity. -/
lemma mem_build_accept_list (descs accept : List String) (org : List (String × String))
    (t x : String) :
    x ∈ build_accept_list descs accept org t ↔
      (x ∈ descs ∧ x ∈ accept) ∨ (∃ d ∈ descs, dlookup d org = some x) ∨
        dlookup t org = some x := by
  unfold build_accept_list
  rw [List.mem_append, mem_descendant_accepts]
  cases hlk : dlookup t org with
  | none => simp [hlk]
  | some v =>
    simp only [List.mem_singleton, Option.some.injEq, or_assoc]
    constructor
    · rintro (h | h | rfl)
      · exact Or.inl h
      · exact Or.inr (Or.inl h)
      · exact Or.inr (Or.inr rfl)
    · rintro (h | h | rfl)
      · exact Or.inl h
      · exact Or.inr (Or.inl h)
      · exact Or.inr (Or.inr rfl)

/-- C5 counterexample: a cell-culture variant in the acceptable set is not
indexed at all: key_organoids_by_ontology_term_id tests only is_organoid,
so the claim that the variant index covers cell-culture variants as well
is false. -/
theorem C5_variant_index_counterexample :
    is_cell_culture "X_1 (cell culture)" = true ∧
    key_organoids_by_ontology_term_id ["X_1 (cell culture)"] = [] ∧
    dlookup "X_1" (key_organoids_by_ontology_term_id ["X_1 (cell culture)"]) = none := by
  decide

/-- C5 (amended): the variant index over the acceptable set maps stems of
organoid variants only — every binding is the stem of an organoid name of
the set mapped to that full name, every organoid name of the set leaves
its stem bound, cell-culture variants are never indexed — and for every
descendant (kept or not) whose stem is a key of the index, as well as for
the tier term itself, the bound variant name is included in the emitted
descendant list. -/
theorem C5_organoid_splice :
    (∀ (names : List String) (s v : String),
      dlookup s (key_organoids_by_ontology_term_id names) = some v →
      v ∈ names ∧ is_organoid v = true ∧ s = replaceRemove v " (organoid)") ∧
    (∀ (names : List String) (v : String), v ∈ names → is_organoid v = true →
      ∃ w, dlookup (replaceRemove v " (organoid)")
          (key_organoids_by_ontology_term_id names) = some w ∧
        is_organoid w = true ∧ w ∈ names) ∧
    (∀ (descs accept : List String) (org : List (String × String)) (t d v : String),
      d ∈ descs → dlookup d org = some v → v ∈ build_accept_list descs accept org t) ∧
    (∀ (descs accept : List String) (org : List (String × String)) (t v : String),
      dlookup t org = some v → v ∈ build_accept_list descs accept org t) := by
  refine ⟨?_, key_organoids_complete, ?_, ?_⟩
  · intro names s v h
    rcases key_organoids_aux_sound names [] s v h with hgood | hacc
    · exact hgood
    · rw [dlookup_nil] at hacc
      exact absurd hacc (by simp)
  · intro descs accept org t d v hd hlk
    exact (mem_build_accept_list descs accept org t v).mpr (Or.inr (Or.inl ⟨d, hd, hlk⟩))
  · intro descs accept org t v hlk
    exact (mem_build_accept_list descs accept org t v).mpr (Or.inr (Or.inr hlk))

/-- C5 witness: the index soundness and the splice applied on concrete
inputs. -/
theorem C5_organoid_splice_witness :
    ("UBERON_1 (organoid)" ∈ ["UBERON_1 (organoid)"] ∧
      is_organoid "UBERON_1 (organoid)" = true ∧
      "UBERON_1" = replaceRemove "UBERON_1 (organoid)" " (organoid)") ∧
    "CL_1 (organoid)" ∈ build_accept_list ["CL_1"] [] [("CL_1", "CL_1 (organoid)")] "CL_2" := by
  constructor
  · exact C5_organoid_splice.1 ["UBERON_1 (organoid)"] "UBERON_1" "UBERON_1 (organoid)"
      (by decide)
  · exact C5_organoid_splice.2.2.1 ["CL_1"] [] [("CL_1", "CL_1 (organoid)")] "CL_2" "CL_1"
      "CL_1 (organoid)" (by decide) (by decide)

/-! ## Claim C6: codec errors in the ancestor mapping -/

/-- Diamond graph over well-formed tissue-style names, used by the
concrete descendant and ancestor mapping scenarios. -/
def tierG : Graph :=
  ⟨["T_A", "T_B", "T_C"], [("T_A", "T_B"), ("T_B", "T_C"), ("T_A", "T_C")]⟩

/-- Any malformed entity anywhere in the list poisons the whole ancestor
mapping: key_ancestors_by_entity can never return a successful mapping,
whatever the graph, the fuel, the accumulator, and the other entities. -/
lemma key_ancestors_no_ok (g : Graph) (fuel : Nat) :
    ∀ (names : List String) (acc : List (String × List String)) (e : String),
      e ∈ names → countChar '_' e ≠ 1 →
      ∀ m, key_ancestors_by_entity g fuel names acc ≠ some (Except.ok m) := by
  intro names
  induction names with
  | nil => intro acc e he; exact absurd he (by simp)
  | cons n rest ih =>
    intro acc e he hbad m h
    rw [show key_ancestors_by_entity g fuel (n :: rest) acc =
        (match list_ancestors g fuel n [] with
         | none => none
         | some (descendants, _, _) =>
           match reformat_ontology_term_id n true with
           | Except.error msg => some (Except.error msg)
           | Except.ok sanitized_entity_name =>
             match mapReformat descendants with
             | Except.error msg => some (Except.error msg)
             | Except.ok sanitized_ancestors =>
               key_ancestors_by_entity g fuel rest
                 (dinsert sanitized_entity_name sanitized_ancestors acc)) from rfl] at h
    cases hanc : list_ancestors g fuel n [] with
    | none => rw [hanc] at h; exact absurd h (by simp)
    | some tr =>
      obtain ⟨anc, q, dl⟩ := tr
      rw [hanc] at h
      replace h : (match reformat_ontology_term_id n true with
          | Except.error msg => some (Except.error msg)
          | Except.ok sanitized_entity_name =>
            match mapReformat anc with
            | Except.error msg => some (Except.error msg)
            | Except.ok sanitized_ancestors =>
              key_ancestors_by_entity g fuel rest
                (dinsert sanitized_entity_name sanitized_ancestors acc)) =
          some (Except.ok m) := h
      rcases List.mem_cons.mp he with rfl | hrest
      · rw [show reformat_ontology_term_id e true =
            Except.error (e ++ " is an invalid ontology term id") from by
              simp [reformat_ontology_term_id, hbad]] at h
        exact absurd h (by simp)
      · cases href : reformat_ontology_term_id n true with
        | error msg => rw [href] at h; exact absurd h (by simp)
        | ok k =>
          rw [href] at h
          replace h : (match mapReformat anc with
              | Except.error msg => some (Except.error msg)
              | Except.ok sanitized_ancestors =>
                key_ancestors_by_entity g fuel rest (dinsert k sanitized_ancestors acc)) =
              some (Except.ok m) := h
          cases hmap : mapReformat anc with
          | error msg => rw [hmap] at h; exact absurd h (by simp)
          | ok vs =>
            rw [hmap] at h
            replace h : key_ancestors_by_entity g fuel rest (dinsert k vs acc) =
                some (Except.ok m) := h
            exact ih _ e hrest hbad m h

/-- C6 counterexample: with production terms T_B (well-formed, present in
the graph) and BADID (malformed), the whole ancestor-mapping computation
aborts with the ValueError: no mapping is produced for T_B either,
although the same run without BADID produces one. -/
theorem C6_codec_containment_counterexample :
    key_ancestors_by_entity tierG 10 ["T_B", "BADID"] [] =
      some (Except.error ("BADID is an invalid ontology term id")) ∧
    key_ancestors_by_entity tierG 10 ["T_B"] [] =
      some (Except.ok [("T:B", ["T:B", "T:A"])]) := by
  exact ⟨by rfl, by rfl⟩

/-- C6 (amended): a FormatError while converting any term aborts the
entire ancestor-mapping computation, not just that term's entry: the
computation never returns a successful mapping when any of the production
terms is malformed, and the concrete two-term run errors out wholesale. -/
theorem C6_codec_error_aborts_all :
    (∀ (g : Graph) (fuel : Nat) (names : List String)
        (acc : List (String × List String)) (e : String),
      e ∈ names → countChar '_' e ≠ 1 →
      ∀ m, key_ancestors_by_entity g fuel names acc ≠ some (Except.ok m)) ∧
    key_ancestors_by_entity tierG 10 ["T_B", "BADID"] [] =
      some (Except.error ("BADID is an invalid ontology term id")) := by
  exact ⟨fun g fuel names acc e => key_ancestors_no_ok g fuel names acc e, by rfl⟩

/-- C6 witness: the no-success conclusion instantiated on the concrete
run with the malformed id. -/
theorem C6_codec_error_aborts_all_witness :
    key_ancestors_by_entity tierG 10 ["T_B", "BADID"] [] ≠ some (Except.ok []) :=
  C6_codec_error_aborts_all.1 tierG 10 ["T_B", "BADID"] [] "BADID" (by decide) (by decide) []

/-! ## Claims C1 and C10: the tiered descendant mapping -/

/-- Soundness of the organoid index in its source form. -/
lemma key_organoids_sound (names : List String) (s v : String)
    (h : dlookup s (key_organoids_by_ontology_term_id names) = some v) :
    v ∈ names ∧ is_organoid v = true ∧ s = replaceRemove v " (organoid)" := by
  rcases key_organoids_aux_sound names [] s v h with hg | hacc
  · exact hg
  · rw [dlookup_nil] at hacc
    exact absurd hacc (by simp)

/-- Every kept descendant is drawn from the acceptable set when the
organoid index is the one computed over that set. -/
lemma build_accept_sub_accept (descs accept : List String) (t x : String)
    (hx : x ∈ build_accept_list descs accept (key_organoids_by_ontology_term_id accept) t) :
    x ∈ accept := by
  rcases (mem_build_accept_list descs accept _ t x).mp hx with ⟨_, ha⟩ | ⟨d, _, hlk⟩ | hlk
  · exact ha
  · exact (key_organoids_sound accept d x hlk).1
  · exact (key_organoids_sound accept t x hlk).1

/-- The list comprehension over reformat_ontology_term_id succeeds on
well-formed ids and maps each underscore to a colon. -/
lemma mapReformat_ok : ∀ (l : List String), (∀ x ∈ l, countChar '_' x = 1) →
    mapReformat l = Except.ok (l.map (replaceChar '_' ':')) := by
  intro l
  induction l with
  | nil => intro _; rfl
  | cons x xs ih =>
    intro h
    have hx := h x (List.mem_cons_self _ _)
    simp only [mapReformat, reformat_to_writable_ok hx,
      ih (fun y hy => h y (List.mem_cons_of_mem _ hy)), List.map_cons]

/-- Well-formed distinct ids have distinct writable keys. -/
lemma key_ne_of_wf {u t : String} (hu1 : countChar '_' u = 1) (hu0 : countChar ':' u = 0)
    (ht0 : countChar ':' t = 0) (hne : u ≠ t) :
    ∀ k, reformat_ontology_term_id u true = Except.ok k → k ≠ replaceChar '_' ':' t := by
  intro k hk
  rw [reformat_to_writable_ok hu1] at hk
  cases Except.ok.inj hk
  exact fun h => hne (replaceChar_inj '_' ':' u t hu0 ht0 h)

/-- Case analysis of a successful process_entity step. -/
lemma process_entity_ok (g : Graph) (fuel : Nat) (accept : List String)
    (org : List (String × String)) (acc acc' : List (String × List String)) (e : String)
    (h : process_entity g fuel accept org acc e = some (Except.ok acc')) :
    ∃ descs q dl, list_descendants g fuel e [] = some (descs, q, dl) ∧
      ((build_accept_list descs accept org e = [] ∧ acc' = acc) ∨
       (build_accept_list descs accept org e ≠ [] ∧
        ∃ k vs, reformat_ontology_term_id e true = Except.ok k ∧
          mapReformat (build_accept_list descs accept org e) = Except.ok vs ∧
          acc' = dinsert k vs acc)) := by
  unfold process_entity at h
  cases hdesc : list_descendants g fuel e [] with
  | none => rw [hdesc] at h; exact absurd h (by simp)
  | some tr =>
    obtain ⟨descs, q, dl⟩ := tr
    rw [hdesc] at h
    refine ⟨descs, q, dl, rfl, ?_⟩
    replace h : (if (build_accept_list descs accept org e).isEmpty then some (Except.ok acc)
        else match reformat_ontology_term_id e true with
          | Except.error msg => some (Except.error msg)
          | Except.ok k =>
            match mapReformat (build_accept_list descs accept org e) with
            | Except.error msg => some (Except.error msg)
            | Except.ok vs => some (Except.ok (dinsert k vs acc))) =
        some (Except.ok acc') := h
    by_cases hk : (build_accept_list descs accept org e).isEmpty = true
    · rw [if_pos hk] at h
      exact Or.inl ⟨by simpa using hk, (Except.ok.inj (Option.some.inj h)).symm⟩
    · rw [if_neg hk] at h
      refine Or.inr ⟨fun hnil => hk (by simp [hnil]), ?_⟩
      cases href : reformat_ontology_term_id e true with
      | error msg => rw [href] at h; exact absurd h (by simp)
      | ok k =>
        rw [href] at h
        cases hmap : mapReformat (build_accept_list descs accept org e) with
        | error msg => rw [hmap] at h; exact absurd h (by simp)
        | ok vs =>
          rw [hmap] at h
          exact ⟨k, vs, rfl, rfl, (Except.ok.inj (Option.some.inj h)).symm⟩

/-- A process_entity step whose key differs from K leaves K unchanged. -/
lemma process_entity_pres (g : Graph) (fuel : Nat) (accept : List String)
    (org : List (String × String)) (acc acc' : List (String × List String))
    (e K : String)
    (h : process_entity g fuel accept org acc e = some (Except.ok acc'))
    (hK : ∀ k, reformat_ontology_term_id e true = Except.ok k → k ≠ K) :
    dlookup K acc' = dlookup K acc := by
  obtain ⟨descs, q, dl, hdesc, hcase⟩ := process_entity_ok g fuel accept org acc acc' e h
  rcases hcase with ⟨_, rfl⟩ | ⟨_, k, vs, href, hmap, rfl⟩
  · rfl
  · rw [dlookup_dinsert, if_neg (fun hKk => hK k href hKk.symm)]

/-- A successful process_tier over a cons splits into the first entity and
the rest. -/
lemma process_tier_ok_cons (g : Graph) (fuel : Nat) (accept : List String)
    (org : List (String × String)) (e : String) (es : List String)
    (acc r : List (String × List String))
    (h : process_tier g fuel accept org (e :: es) acc = some (Except.ok r)) :
    ∃ acc1, process_entity g fuel accept org acc e = some (Except.ok acc1) ∧
      process_tier g fuel accept org es acc1 = some (Except.ok r) := by
  unfold process_tier at h
  cases hpe : process_entity g fuel accept org acc e with
  | none => rw [hpe] at h; exact absurd h (by simp)
  | some x =>
    rw [hpe] at h
    cases x with
    | error msg => exact absurd h (by simp)
    | ok acc1 => exact ⟨acc1, rfl, h⟩

/-- A process_tier round whose entities all have keys other than K leaves
K unchanged. -/
lemma process_tier_pres (g : Graph) (fuel : Nat) (accept : List String)
    (org : List (String × String)) (K : String) :
    ∀ (es : List String) (acc acc' : List (String × List String)),
      process_tier g fuel accept org es acc = some (Except.ok acc') →
      (∀ u ∈ es, ∀ k, reformat_ontology_term_id u true = Except.ok k → k ≠ K) →
      dlookup K acc' = dlookup K acc := by
  intro es
  induction es with
  | nil =>
    intro acc acc' h _
    cases Except.ok.inj (Option.some.inj h)
    rfl
  | cons e es ih =>
    intro acc acc' h hK
    obtain ⟨acc1, hpe, hrest⟩ := process_tier_ok_cons g fuel accept org e es acc acc' h
    rw [ih acc1 acc' hrest (fun u hu => hK u (List.mem_cons_of_mem _ hu)),
      process_entity_pres g fuel accept org acc acc1 e K hpe (hK e (List.mem_cons_self _ _))]

/-- The entry of a term after its tier round: the kept list decides
whether the key is written, and the written value is the reformatted kept
list, provided no other entity of the round shares the key. -/
lemma process_tier_entry (g : Graph) (fuel : Nat) (accept : List String)
    (org : List (String × String)) (K : String) :
    ∀ (es : List String) (acc acc' : List (String × List String)) (t : String),
      process_tier g fuel accept org es acc = some (Except.ok acc') →
      t ∈ es →
      reformat_ontology_term_id t true = Except.ok K →
      (∀ u ∈ es, u ≠ t → ∀ k, reformat_ontology_term_id u true = Except.ok k → k ≠ K) →
      ∃ descs q dl, list_descendants g fuel t [] = some (descs, q, dl) ∧
        (build_accept_list descs accept org t = [] →
          dlookup K acc' = dlookup K acc) ∧
        (build_accept_list descs accept org t ≠ [] →
          ∃ vs, mapReformat (build_accept_list descs accept org t) = Except.ok vs ∧
            dlookup K acc' = some vs) := by
  intro es
  induction es with
  | nil => intro acc acc' t h ht; exact absurd ht (by simp)
  | cons e es ih =>
    intro acc acc' t h ht hKt hothers
    obtain ⟨acc1, hpe, hrest⟩ := process_tier_ok_cons g fuel accept org e es acc acc' h
    by_cases het : e = t
    · subst het
      obtain ⟨descs, q, dl, hdesc, hcase⟩ := process_entity_ok g fuel accept org acc acc1 e hpe
      by_cases hmem : e ∈ es
      · obtain ⟨descs2, q2, dl2, hdesc2, hc1, hc2⟩ := ih acc1 acc' e hrest hmem hKt
          (fun u hu hut => hothers u (List.mem_cons_of_mem _ hu) hut)
        rw [hdesc] at hdesc2
        simp only [Option.some.injEq, Prod.mk.injEq] at hdesc2
        obtain ⟨rfl, rfl, rfl⟩ := hdesc2
        refine ⟨descs, q, dl, hdesc, fun hnil => ?_, hc2⟩
        rcases hcase with ⟨_, rfl⟩ | ⟨hne, _⟩
        · exact hc1 hnil
        · exact absurd hnil hne
      · have hpres : dlookup K acc' = dlookup K acc1 :=
          process_tier_pres g fuel accept org K es acc1 acc' hrest
            (fun u hu k hk => hothers u (List.mem_cons_of_mem _ hu)
              (fun hue => hmem (hue ▸ hu)) k hk)
        refine ⟨descs, q, dl, hdesc, fun hnil => ?_, fun hne => ?_⟩
        · rcases hcase with ⟨_, rfl⟩ | ⟨hne, _⟩
          · exact hpres
          · exact absurd hnil hne
        · rcases hcase with ⟨hnil, _⟩ | ⟨_, k, vs, href, hmap, rfl⟩
          · exact absurd hnil hne
          · have hkK : k = K := Except.ok.inj (href.symm.trans hKt)
            subst hkK
            exact ⟨vs, hmap, by rw [hpres, dlookup_dinsert, if_pos rfl]⟩
    · have ht' : t ∈ es := by
        rcases List.mem_cons.mp ht with h' | h'
        · exact absurd h'.symm het
        · exact h'
      obtain ⟨descs, q, dl, hdesc, hc1, hc2⟩ := ih acc1 acc' t hrest ht' hKt
        (fun u hu hut => hothers u (List.mem_cons_of_mem _ hu) hut)
      have hstep : dlookup K acc1 = dlookup K acc :=
        process_entity_pres g fuel accept org acc acc1 e K hpe
          (hothers e (List.mem_cons_self _ _) het)
      exact ⟨descs, q, dl, hdesc, fun hnil => by rw [hc1 hnil, hstep], hc2⟩

lemma write_desc_nil (g : Graph) (fuel : Nat) (acc : List (String × List String)) :
    write_descendants_by_entity g fuel [] acc = some (Except.ok acc) := rfl

lemma write_desc_cons (g : Graph) (fuel : Nat) (es : List String)
    (rest : List (List String)) (acc : List (String × List String)) :
    write_descendants_by_entity g fuel (es :: rest) acc =
      if rest.isEmpty then write_descendants_by_entity g fuel rest acc
      else match process_tier g fuel rest.flatten
          (key_organoids_by_ontology_term_id rest.flatten) es acc with
        | none => none
        | some (Except.error msg) => some (Except.error msg)
        | some (Except.ok acc1) => write_descendants_by_entity g fuel rest acc1 := rfl

/-- A successful write step over a tier with lower tiers splits into the
tier's round and the remaining loop. -/
lemma write_cons_ok (g : Graph) (fuel : Nat) (es : List String)
    (rest : List (List String)) (acc d : List (String × List String))
    (hne : rest ≠ [])
    (h : write_descendants_by_entity g fuel (es :: rest) acc = some (Except.ok d)) :
    ∃ acc1, process_tier g fuel rest.flatten
        (key_organoids_by_ontology_term_id rest.flatten) es acc = some (Except.ok acc1) ∧
      write_descendants_by_entity g fuel rest acc1 = some (Except.ok d) := by
  rw [write_desc_cons, if_neg (by simpa using hne)] at h
  cases hpt : process_tier g fuel rest.flatten
      (key_organoids_by_ontology_term_id rest.flatten) es acc with
  | none => rw [hpt] at h; exact absurd h (by simp)
  | some x =>
    rw [hpt] at h
    cases x with
    | error msg => exact absurd h (by simp)
    | ok acc1 => exact ⟨acc1, rfl, h⟩

/-- The whole descendant loop leaves a key unchanged when no entity of
any processed (non-final) tier has that key. -/
lemma write_pres (g : Graph) (fuel : Nat) (K : String) :
    ∀ (tiers : List (List String)) (acc acc' : List (String × List String)),
      write_descendants_by_entity g fuel tiers acc = some (Except.ok acc') →
      (∀ es ∈ tiers.dropLast, ∀ u ∈ es,
        ∀ k, reformat_ontology_term_id u true = Except.ok k → k ≠ K) →
      dlookup K acc' = dlookup K acc := by
  intro tiers
  induction tiers with
  | nil =>
    intro acc acc' h _
    rw [write_desc_nil] at h
    cases Except.ok.inj (Option.some.inj h)
    rfl
  | cons es rest ih =>
    intro acc acc' h hd
    by_cases hre : rest = []
    · subst hre
      rw [write_desc_cons,
        if_pos (show ([] : List (List String)).isEmpty = true from rfl),
        write_desc_nil] at h
      cases Except.ok.inj (Option.some.inj h)
      rfl
    · obtain ⟨acc1, hpt, hw⟩ := write_cons_ok g fuel es rest acc acc' hre h
      have hdrop : (es :: rest).dropLast = es :: rest.dropLast := by
        cases rest with
        | nil => exact absurd rfl hre
        | cons r rs => rfl
      rw [ih acc1 acc' hw (fun es' hes' => hd es' (by rw [hdrop]; exact List.mem_cons_of_mem _ hes')),
        process_tier_pres g fuel _ _ K es acc acc1 hpt
          (hd es (by rw [hdrop]; exact List.mem_cons_self _ _))]

/-- Peeling a prefix of tiers off a successful run: the suffix runs from
some intermediate dictionary, and a key not written by any prefix tier has
the same binding there as at the start. -/
lemma write_peel (g : Graph) (fuel : Nat) (K : String) :
    ∀ (pre suf : List (List String)) (acc d : List (String × List String)),
      write_descendants_by_entity g fuel (pre ++ suf) acc = some (Except.ok d) →
      ∃ accmid, write_descendants_by_entity g fuel suf accmid = some (Except.ok d) ∧
        ((∀ es ∈ pre, ∀ u ∈ es,
            ∀ k, reformat_ontology_term_id u true = Except.ok k → k ≠ K) →
          dlookup K accmid = dlookup K acc) := by
  intro pre
  induction pre with
  | nil => intro suf acc d h; exact ⟨acc, h, fun _ => rfl⟩
  | cons es pre' ih =>
    intro suf acc d h
    rw [List.cons_append] at h
    by_cases hre : pre' ++ suf = []
    · rw [write_desc_cons, if_pos (by simp [hre]), hre, write_desc_nil] at h
      cases Except.ok.inj (Option.some.inj h)
      have hsuf : suf = [] := by
        rcases List.append_eq_nil.mp hre with ⟨_, h2⟩
        exact h2
      subst hsuf
      exact ⟨acc, write_desc_nil g fuel acc, fun _ => rfl⟩
    · obtain ⟨acc1, hpt, hw⟩ := write_cons_ok g fuel es (pre' ++ suf) acc d hre h
      obtain ⟨accmid, h1, h2⟩ := ih suf acc1 d hw
      refine ⟨accmid, h1, fun hK => ?_⟩
      rw [h2 (fun es' hes' => hK es' (List.mem_cons_of_mem _ hes')),
        process_tier_pres g fuel _ _ K es acc acc1 hpt (hK es (List.mem_cons_self _ _))]

/-- C1: Tier restriction of the descendant mapping.  For a term t of its
tier in the hierarchy (occurring in no other tier, all names well-formed),
on a successful run: if the tier is the last one, t gets no entry; if the
tier has lower tiers, the kept list is exactly the computed descendants of
t lying in the union of the strictly lower tiers plus the registered
organoid variants of descendants and of t itself, the entry carries the
kept list in writable form, and it is present exactly when the kept list
is non-empty.  On the concrete diamond instance the witness below checks
the mapping A to B and C, B to C, and no entry for C. -/
theorem C1_tier_restriction (g : Graph) (fuel : Nat) (pre rest : List (List String))
    (es : List String) (t : String) (d : List (String × List String))
    (hrun : write_descendants_by_entity g fuel (pre ++ es :: rest) [] = some (Except.ok d))
    (ht : t ∈ es)
    (hpre : ∀ es' ∈ pre, t ∉ es')
    (hrest : ∀ es' ∈ rest, t ∉ es')
    (hwf : ∀ es' ∈ pre ++ es :: rest, ∀ u ∈ es',
      countChar '_' u = 1 ∧ countChar ':' u = 0) :
    (rest = [] → dlookup (replaceChar '_' ':' t) d = none) ∧
    (rest ≠ [] →
      ∃ descs q dl, list_descendants g fuel t [] = some (descs, q, dl) ∧
        (∀ x, x ∈ build_accept_list descs rest.flatten
            (key_organoids_by_ontology_term_id rest.flatten) t ↔
          ((x ∈ descs ∧ x ∈ rest.flatten) ∨
           (∃ s ∈ descs,
             dlookup s (key_organoids_by_ontology_term_id rest.flatten) = some x) ∨
           dlookup t (key_organoids_by_ontology_term_id rest.flatten) = some x)) ∧
        (build_accept_list descs rest.flatten
            (key_organoids_by_ontology_term_id rest.flatten) t = [] →
          dlookup (replaceChar '_' ':' t) d = none) ∧
        (build_accept_list descs rest.flatten
            (key_organoids_by_ontology_term_id rest.flatten) t ≠ [] →
          dlookup (replaceChar '_' ':' t) d =
            some ((build_accept_list descs rest.flatten
              (key_organoids_by_ontology_term_id rest.flatten) t).map
                (replaceChar '_' ':')))) := by
  have htes : es ∈ pre ++ es :: rest :=
    List.mem_append_right pre (List.mem_cons_self es rest)
  have hwft := hwf es htes t ht
  have hKt : reformat_ontology_term_id t true =
      Except.ok (replaceChar '_' ':' t) := reformat_to_writable_ok hwft.1
  have hprekeys : ∀ es' ∈ pre, ∀ u ∈ es',
      ∀ k, reformat_ontology_term_id u true = Except.ok k →
        k ≠ replaceChar '_' ':' t := by
    intro es' hes' u hu k hk
    have hwfu := hwf es' (List.mem_append_left _ hes') u hu
    exact key_ne_of_wf hwfu.1 hwfu.2 hwft.2 (fun hut => hpre es' hes' (hut ▸ hu)) k hk
  constructor
  · intro hre
    subst hre
    have hdl : (pre ++ [es]).dropLast = pre := List.dropLast_concat
    have := write_pres g fuel (replaceChar '_' ':' t) (pre ++ [es]) [] d hrun
      (by rw [hdl]; exact hprekeys)
    rw [this, dlookup_nil]
  · intro hre
    obtain ⟨accmid, hsuf, hmidpres⟩ :=
      write_peel g fuel (replaceChar '_' ':' t) pre (es :: rest) [] d hrun
    have hmid : dlookup (replaceChar '_' ':' t) accmid = none := by
      rw [hmidpres hprekeys, dlookup_nil]
    obtain ⟨acc1, hpt, hw⟩ := write_cons_ok g fuel es rest accmid d hre hsuf
    have hothers : ∀ u ∈ es, u ≠ t →
        ∀ k, reformat_ontology_term_id u true = Except.ok k →
          k ≠ replaceChar '_' ':' t := by
      intro u hu hut k hk
      have hwfu := hwf es htes u hu
      exact key_ne_of_wf hwfu.1 hwfu.2 hwft.2 hut k hk
    obtain ⟨descs, q, dl, hdesc, hc1, hc2⟩ :=
      process_tier_entry g fuel rest.flatten
        (key_organoids_by_ontology_term_id rest.flatten) (replaceChar '_' ':' t)
        es accmid acc1 t hpt ht hKt hothers
    have hafter : dlookup (replaceChar '_' ':' t) d =
        dlookup (replaceChar '_' ':' t) acc1 := by
      refine write_pres g fuel (replaceChar '_' ':' t) rest acc1 d hw ?_
      intro es' hes' u hu k hk
      have hes'' : es' ∈ rest := List.dropLast_subset rest hes'
      have hwfu := hwf es' (List.mem_append_right pre (List.mem_cons_of_mem es hes'')) u hu
      exact key_ne_of_wf hwfu.1 hwfu.2 hwft.2
        (fun hut => hrest es' hes'' (hut ▸ hu)) k hk
    refine ⟨descs, q, dl, hdesc,
      fun x => mem_build_accept_list descs rest.flatten _ t x, fun hnil => ?_,
      fun hne => ?_⟩
    · rw [hafter, hc1 hnil, hmid]
    · obtain ⟨vs, hmap, hval⟩ := hc2 hne
      have hkWF : ∀ x ∈ build_accept_list descs rest.flatten
          (key_organoids_by_ontology_term_id rest.flatten) t,
          countChar '_' x = 1 := by
        intro x hx
        have hxa : x ∈ rest.flatten := build_accept_sub_accept descs rest.flatten t x hx
        obtain ⟨es', hes', hxes'⟩ := List.mem_flatten.mp hxa
        exact (hwf es' (List.mem_append_right pre (List.mem_cons_of_mem es hes')) x hxes').1
      rw [mapReformat_ok _ hkWF] at hmap
      cases Except.ok.inj hmap
      rw [hafter, hval]

/-- Diamond graph for the last-tier-wins scenario, over well-formed
names. -/
def g10 : Graph :=
  ⟨["U_A", "U_C", "U_B"], [("U_A", "U_C"), ("U_C", "U_B"), ("U_A", "U_B")]⟩

/-- C10: Last-tier-wins overwrite.  When a term occurs both in an earlier
tier and in a later tier that still has lower tiers, occurs in no tier
below the later one, all names are well-formed and the run succeeds, the
final mapping binds the term's writable key to the kept list computed in
the later tier's round (the later round's plain dict assignment silently
overwrites the earlier entry). -/
theorem C10_last_tier_wins (g : Graph) (fuel : Nat) (pre rest : List (List String))
    (esj : List String) (t : String) (d : List (String × List String))
    (hrun : write_descendants_by_entity g fuel (pre ++ esj :: rest) [] = some (Except.ok d))
    (ht : t ∈ esj)
    (_hearlier : ∃ esi ∈ pre, t ∈ esi)
    (hne : rest ≠ [])
    (hrest : ∀ es' ∈ rest, t ∉ es')
    (hwf : ∀ es' ∈ pre ++ esj :: rest, ∀ u ∈ es',
      countChar '_' u = 1 ∧ countChar ':' u = 0) :
    ∃ descs q dl, list_descendants g fuel t [] = some (descs, q, dl) ∧
      (build_accept_list descs rest.flatten
          (key_organoids_by_ontology_term_id rest.flatten) t ≠ [] →
        dlookup (replaceChar '_' ':' t) d =
          some ((build_accept_list descs rest.flatten
            (key_organoids_by_ontology_term_id rest.flatten) t).map
              (replaceChar '_' ':'))) := by
  have htes : esj ∈ pre ++ esj :: rest :=
    List.mem_append_right pre (List.mem_cons_self esj rest)
  have hwft := hwf esj htes t ht
  have hKt : reformat_ontology_term_id t true =
      Except.ok (replaceChar '_' ':' t) := reformat_to_writable_ok hwft.1
  obtain ⟨accmid, hsuf, _⟩ :=
    write_peel g fuel (replaceChar '_' ':' t) pre (esj :: rest) [] d hrun
  obtain ⟨acc1, hpt, hw⟩ := write_cons_ok g fuel esj rest accmid d hne hsuf
  have hothers : ∀ u ∈ esj, u ≠ t →
      ∀ k, reformat_ontology_term_id u true = Except.ok k →
        k ≠ replaceChar '_' ':' t := by
    intro u hu hut k hk
    have hwfu := hwf esj htes u hu
    exact key_ne_of_wf hwfu.1 hwfu.2 hwft.2 hut k hk
  obtain ⟨descs, q, dl, hdesc, hc1, hc2⟩ :=
    process_tier_entry g fuel rest.flatten
      (key_organoids_by_ontology_term_id rest.flatten) (replaceChar '_' ':' t)
      esj accmid acc1 t hpt ht hKt hothers
  have hafter : dlookup (replaceChar '_' ':' t) d =
      dlookup (replaceChar '_' ':' t) acc1 := by
    refine write_pres g fuel (replaceChar '_' ':' t) rest acc1 d hw ?_
    intro es' hes' u hu k hk
    have hes'' : es' ∈ rest := List.dropLast_subset rest hes'
    have hwfu := hwf es' (List.mem_append_right pre (List.mem_cons_of_mem esj hes'')) u hu
    exact key_ne_of_wf hwfu.1 hwfu.2 hwft.2
      (fun hut => hrest es' hes'' (hut ▸ hu)) k hk
  refine ⟨descs, q, dl, hdesc, fun hnem => ?_⟩
  obtain ⟨vs, hmap, hval⟩ := hc2 hnem
  have hkWF : ∀ x ∈ build_accept_list descs rest.flatten
      (key_organoids_by_ontology_term_id rest.flatten) t,
      countChar '_' x = 1 := by
    intro x hx
    have hxa : x ∈ rest.flatten := build_accept_sub_accept descs rest.flatten t x hx
    obtain ⟨es', hes', hxes'⟩ := List.mem_flatten.mp hxa
    exact (hwf es' (List.mem_append_right pre (List.mem_cons_of_mem esj hes')) x hxes').1
  rw [mapReformat_ok _ hkWF] at hmap
  cases Except.ok.inj hmap
  rw [hafter, hval]

/-- C1 witness: the tiers of singleton sets A, B, C over the diamond give
the mapping A to B and C, B to C, and no entry for the last-tier term C,
via the theorem. -/
theorem C1_tier_restriction_witness :
    dlookup "T:A" [("T:A", ["T:B", "T:C"]), ("T:B", ["T:C"])] = some ["T:B", "T:C"] ∧
    dlookup "T:C" [("T:A", ["T:B", "T:C"]), ("T:B", ["T:C"])] = none := by
  constructor
  · have h := (C1_tier_restriction tierG 10 [] [["T_B"], ["T_C"]] ["T_A"] "T_A"
      [("T:A", ["T:B", "T:C"]), ("T:B", ["T:C"])] (by rfl) (by decide) (by decide)
      (by decide) (by decide)).2 (by decide)
    obtain ⟨descs, q, dl, hdesc, hmem, hnil, hval⟩ := h
    have hconc : list_descendants tierG 10 "T_A" [] =
        some (["T_B", "T_C"], ["T_A", "T_B", "T_C", "T_C"], []) := by decide
    rw [hconc] at hdesc
    simp only [Option.some.injEq, Prod.mk.injEq] at hdesc
    obtain ⟨rfl, rfl, rfl⟩ := hdesc
    have hv := hval (by decide)
    rw [show replaceChar '_' ':' "T_A" = "T:A" from by decide] at hv
    rw [show (build_accept_list ["T_B", "T_C"]
        ([["T_B"], ["T_C"]] : List (List String)).flatten
        (key_organoids_by_ontology_term_id
          ([["T_B"], ["T_C"]] : List (List String)).flatten) "T_A").map
          (replaceChar '_' ':') = ["T:B", "T:C"] from by decide] at hv
    exact hv
  · have h := (C1_tier_restriction tierG 10 [["T_A"], ["T_B"]] [] ["T_C"] "T_C"
      [("T:A", ["T:B", "T:C"]), ("T:B", ["T:C"])] (by rfl) (by decide) (by decide)
      (by decide) (by decide)).1 rfl
    rw [show replaceChar '_' ':' "T_C" = "T:C" from by decide] at h
    exact h

/-- C10 witness: the term A occurs in tier 0 and tier 2 of a four-tier
hierarchy; tier 0's round writes A to C and B, tier 2's round overwrites
with just B, and the final mapping holds the later value. -/
theorem C10_last_tier_wins_witness :
    dlookup "U:A" [("U:A", ["U:B"]), ("U:C", ["U:B"])] = some ["U:B"] := by
  have h := C10_last_tier_wins g10 10 [["U_A"], ["U_C"]] [["U_B"]] ["U_A"] "U_A"
    [("U:A", ["U:B"]), ("U:C", ["U:B"])] (by rfl) (by decide) (by decide) (by decide)
    (by decide) (by decide)
  obtain ⟨descs, q, dl, hdesc, hval⟩ := h
  have hconc : list_descendants g10 10 "U_A" [] =
      some (["U_C", "U_B"], ["U_A", "U_C", "U_B", "U_B"], []) := by decide
  rw [hconc] at hdesc
  simp only [Option.some.injEq, Prod.mk.injEq] at hdesc
  obtain ⟨rfl, rfl, rfl⟩ := hdesc
  have hv := hval (by decide)
  rw [show replaceChar '_' ':' "U_A" = "U:A" from by decide] at hv
  rw [show (build_accept_list ["U_C", "U_B"]
      ([["U_B"]] : List (List String)).flatten
      (key_organoids_by_ontology_term_id
        ([["U_B"]] : List (List String)).flatten) "U_A").map
        (replaceChar '_' ':') = ["U:B"] from by decide] at hv
  exact hv

end CxG
